import Mathlib

/-!
Verification of `pyscf/pbc/lib/kpts_helper.py`.

The module is embedded shallowly: k-points are 3-component rational vectors,
the lattice transform is a rational 3x3 matrix, numpy arrays are lists
(row-major) together with a shape, and every fallible code path returns
`Except PyError`.  Floating-point numbers are modelled by exact rationals;
`np.rint` (round to nearest, ties to even) is modelled exactly by `rintQ`.
-/

set_option maxRecDepth 4000

/-- Error conditions raised by the Python code (`ValueError`, failed `assert`,
`NotImplementedError`, numpy broadcast and reshape failures).  Each raise site
in the source is mapped to one tag. -/
inductive PyError where
  | typeMismatch
  | unsupportedValue
  | sizeMismatch
  | shapeMismatch
  | assertionError
  | notImplementedError
  | broadcastError
  | reshapeError
  | rankError
  | unpackError
deriving Repr, DecidableEq

instance {ε α : Type} [DecidableEq ε] [DecidableEq α] : DecidableEq (Except ε α)
  | .error e, .error f =>
    if h : e = f then .isTrue (by rw [h]) else .isFalse (by simp [h])
  | .error _, .ok _ => .isFalse (by simp)
  | .ok _, .error _ => .isFalse (by simp)
  | .ok x, .ok y =>
    if h : x = y then .isTrue (by rw [h]) else .isFalse (by simp [h])

/-- A k-point: 3-component rational vector. -/
abbrev Vec3 := Fin 3 → ℚ

/-- The lattice transform `a = cell.lattice_vectors() / (2 pi)`: a 3x3 matrix. -/
abbrev Mat3 := Fin 3 → Fin 3 → ℚ

/-- Module constant `KPT_DIFF_TOL` (default `1e-6`). -/
def KPT_DIFF_TOL : ℚ := 1 / 1000000

/-- The tolerance `1e-9` used by the momentum-conservation solvers. -/
def tol9 : ℚ := 1 / 1000000000

/-- The zero k-point. -/
def zero3 : Vec3 := fun _ => 0

/-- Indexing `kpts[i]` for a list of k-points. -/
def kv (kpts : List Vec3) (i : ℕ) : Vec3 := kpts.getD i zero3

/-- Identity lattice transform, used for concrete instances. -/
def idMat : Mat3 := fun w x => if w = x then 1 else 0

/-- The contraction `einsum('x,wx->w', v, a)`: component `w` is `sum_x v x * a w x`. -/
def matvec (a : Mat3) (v : Vec3) : Vec3 := fun w => ∑ x, v x * a w x

/-- The rounding function `np.rint`: nearest integer, ties to even. -/
def rintQ (y : ℚ) : ℤ :=
  let f : ℤ := y.floor
  let r : ℚ := y - (f : ℚ)
  if 2 * r < 1 then f
  else if 1 < 2 * r then f + 1
  else if f % 2 = 0 then f else f + 1

/-- Absolute residual of a rational from its nearest integer, `|y - rint(y)|`. -/
def rintResid (y : ℚ) : ℚ := |y - ((rintQ y : ℤ) : ℚ)|

/-- The mask test of `get_kconserv` (line 83): the SUM over the three components
of the residual from the nearest integer is below `1e-9`.  Note this is an
l1-norm condition, not a per-component condition. -/
def conservTest (a : Mat3) (v : Vec3) : Bool :=
  decide ((∑ w, rintResid (matvec a v w)) < tol9)

/-- The momentum sum `kpts[p] - kpts[q] + kpts[r] - kpts[N]` tested in
`get_kconserv`. -/
def kvSum (kpts : List Vec3) (p q r N : ℕ) : Vec3 :=
  kv kpts p - kv kpts q + kv kpts r - kv kpts N

/-- Candidate `N` conserves momentum for the triple `(p,q,r)` in the sense of
the code's mask. -/
def conserves (a : Mat3) (kpts : List Vec3) (p q r N : ℕ) : Bool :=
  conservTest a (kvSum kpts p q r N)

/-- One entry of the array built by `get_kconserv`: the entry starts at 0
(`np.zeros`) and, for `N = 0, 1, ...` in increasing order, is overwritten
with `N` whenever the mask holds at `N`.  The loop over `N` is the outer
`for N, kvN in enumerate(kpts)` of the source; entries of the array are
independent of one another. -/
def get_kconserv (a : Mat3) (kpts : List Vec3) (p q r : ℕ) : ℕ :=
  (List.range kpts.length).foldl
    (fun acc N => if conserves a kpts p q r N then N else acc) 0

/-- The residual condition as claim C1 words it: every COMPONENT of
`(kpts[p] - kpts[q] + kpts[r] - kpts[N]) . a` is within `1e-9` of its nearest
integer.  This differs from the code's `conservTest`, which bounds the sum of
the componentwise residuals. -/
def claimComponentwiseTest (a : Mat3) (kpts : List Vec3) (p q r N : ℕ) : Prop :=
  ∀ w, rintResid (matvec a (kvSum kpts p q r N) w) < tol9

instance (a : Mat3) (kpts : List Vec3) (p q r N : ℕ) :
    Decidable (claimComponentwiseTest a kpts p q r N) := by
  unfold claimComponentwiseTest; infer_instance

/-- Concrete k-point list refuting the componentwise reading of claim C1:
each component of the first point sits `3e-10` above one half. -/
def ceKpts1 : List Vec3 :=
  [![1/2 + 3/10000000000, 1/2 + 3/10000000000, 0], ![0, 0, 0]]

/-- Two coincident zero k-points: every candidate conserves every triple. -/
def dupKpts : List Vec3 := [zero3, zero3]

/-- Two incommensurate k-points: no candidate conserves the triple `(0,1,0)`. -/
def badKpts : List Vec3 := [![1/3, 0, 0], ![1/9, 0, 0]]

/-- Two k-points on a half-lattice: `kconserv` is the parity function, and for
every triple exactly one candidate conserves. -/
def parityKpts : List Vec3 := [![0, 0, 0], ![1/2, 0, 0]]

/-- A five-point index group, one entry of `kijkab`: either a single integer
index (a Python `int`) or a sequence of indices (a `range` or list). -/
inductive KGroup where
  | scalar (i : ℕ)
  | seq (l : List ℕ)
deriving Repr, DecidableEq

/-- Group size as computed by `np.size`: an `int` has size 1, a sequence its
length. -/
def KGroup.npSize : KGroup → ℕ
  | .scalar _ => 1
  | .seq _l => _l.length

/-- The `isinstance(x, (int, np.int))` test of line 202. -/
def KGroup.isScalar : KGroup → Bool
  | .scalar _ => true
  | .seq _ => false

/-- The rows `kpts[x].reshape(-1,3)` of one index group (line 187). -/
def KGroup.rows (kpts : List Vec3) : KGroup → List Vec3
  | .scalar i => [kv kpts i]
  | .seq l => l.map (kv kpts)

/-- An integer numpy array: a shape together with row-major data. -/
structure NDArrInt where
  shape : List ℕ
  data : List ℕ
deriving Repr, DecidableEq

/-- The reshape at line 203: `np.reshape` keeps the row-major data and fails
unless the new shape has the same total size. -/
def npReshape (arr : NDArrInt) (newShape : List ℕ) : Except PyError NDArrInt :=
  if newShape.prod = arr.data.length then .ok ⟨newShape, arr.data⟩
  else .error .reshapeError

/-- The five-point mask test of `get_kconserv3` (line 198): candidate `c`
conserves when the sum of the componentwise residuals of
`(kk - ka - kb + ki + kj - kc) . a` is below `1e-9`. -/
def conserves5 (a : Mat3) (kpts : List Vec3) (vi vj vk va vb : Vec3) (c : ℕ) : Bool :=
  conservTest a (vk - va - vb + vi + vj - kv kpts c)

/-- One entry of the five-point conservation array: starts at 0 (`np.zeros`)
and is overwritten by each conserving candidate `c` in increasing order. -/
def kconserv3Entry (a : Mat3) (kpts : List Vec3) (vi vj vk va vb : Vec3) : ℕ :=
  (List.range kpts.length).foldl
    (fun acc c => if conserves5 a kpts vi vj vk va vb c then c else acc) 0

/-- Embedding of `get_kconserv3(cell, kpts, kijkab)`: destructures the five
index groups, builds the `(size_i,...,size_b)`-shaped array entry by entry,
then reshapes dropping the axes of the groups given as plain integers. -/
def get_kconserv3 (a : Mat3) (kpts : List Vec3) (kijkab : List KGroup) :
    Except PyError NDArrInt :=
  match kijkab with
  | [gi, gj, gk, ga, gb] =>
    let shape := [gi.npSize, gj.npSize, gk.npSize, ga.npSize, gb.npSize]
    let data := (gi.rows kpts).flatMap fun vi =>
      (gj.rows kpts).flatMap fun vj =>
      (gk.rows kpts).flatMap fun vk =>
      (ga.rows kpts).flatMap fun va =>
      (gb.rows kpts).map fun vb => kconserv3Entry a kpts vi vj vk va vb
    let new_shape := ([gi, gj, gk, ga, gb].filter fun g => !g.isScalar).map KGroup.npSize
    npReshape ⟨shape, data⟩ new_shape
  | _ => .error .unpackError

/-- One k-point at the origin (the Gamma point). -/
def gammaKpts : List Vec3 := [![0, 0, 0]]

/-- Index groups for the C6 counterexample: four sequence groups of length 1
and one integer group. -/
def ce6 : List KGroup := [.seq [0], .scalar 0, .seq [0], .seq [0], .seq [0]]

/-- An ordered triple of k-point indices. -/
abbrev Triple := ℕ × ℕ × ℕ

/-- State of the `KptsHelper.__init__` scan over all triples: the `completed`
marks, the insertion-ordered `symm_map` (an `OrderedDict` modelled as an
association list) and the `_operation` array. -/
structure BuildState where
  completed : Triple → Bool
  symm_map : List (Triple × List Triple)
  oper : Triple → ℕ

/-- Initial scan state: nothing completed, empty map, `np.zeros` operations. -/
def initState : BuildState := ⟨fun _ => false, [], fun _ => 0⟩

/-- The body of the loop of `KptsHelper.__init__` (lines 423-444): on a fresh
triple `(kp,kq,kr)` with `ks = kconserv[kp,kq,kr]`, record the orbit members
`(kp,kq,kr), (kr,ks,kp), (kq,kp,ks), (ks,kr,kq)` with operations 0,1,2,3 (in
that order of assignment) and mark all four completed. -/
def buildStep (kc : Triple → ℕ) (st : BuildState) (t : Triple) : BuildState :=
  if st.completed t then st
  else
    let kp := t.1
    let kq := t.2.1
    let kr := t.2.2
    let ks := kc (kp, kq, kr)
    { completed := fun u =>
        if u = (kp,kq,kr) ∨ u = (kr,ks,kp) ∨ u = (kq,kp,ks) ∨ u = (ks,kr,kq) then true
        else st.completed u
      symm_map := st.symm_map ++
        [((kp,kq,kr), [(kp,kq,kr), (kr,ks,kp), (kq,kp,ks), (ks,kr,kq)])]
      oper := Function.update (Function.update (Function.update
        (Function.update st.oper (kp,kq,kr) 0) (kr,ks,kp) 1) (kq,kp,ks) 2) (ks,kr,kq) 3 }

/-- `loop_kkk(nkpts)`: all ordered triples in lexicographic order, as produced
by `itertools.product` and `lib.cartesian_prod`. -/
def loop_kkk (n : ℕ) : List Triple :=
  (List.range n).flatMap fun p =>
    (List.range n).flatMap fun q =>
      (List.range n).map fun r => (p, q, r)

/-- The conservation tensor computed by `KptsHelper.__init__` from its inputs. -/
def kconservFun (a : Mat3) (kpts : List Vec3) : Triple → ℕ :=
  fun t => get_kconserv a kpts t.1 t.2.1 t.2.2

/-- The attributes of a constructed `KptsHelper`. -/
structure KptsHelper where
  kconserv : Triple → ℕ
  symm_map : List (Triple × List Triple)
  _operation : Triple → ℕ

/-- Embedding of `KptsHelper.__init__(cell, kpts)`. -/
def mkKptsHelper (a : Mat3) (kpts : List Vec3) : KptsHelper :=
  let kc := kconservFun a kpts
  let st := (loop_kkk kpts.length).foldl (buildStep kc) initState
  ⟨kc, st.symm_map, st.oper⟩

/-- The orbit map recording operation 1: `(p,q,r) -> (r,s,p)`. -/
def og1 (kc : Triple → ℕ) (t : Triple) : Triple := (t.2.2, kc t, t.1)

/-- The orbit map recording operation 2: `(p,q,r) -> (q,p,s)`. -/
def og2 (kc : Triple → ℕ) (t : Triple) : Triple := (t.2.1, t.1, kc t)

/-- The orbit map recording operation 3: `(p,q,r) -> (s,r,q)`. -/
def og3 (kc : Triple → ℕ) (t : Triple) : Triple := (kc t, t.2.2, t.2.1)

/-- The four orbit members listed for a canonical triple. -/
def orbitList (kc : Triple → ℕ) (t : Triple) : List Triple :=
  [t, og1 kc t, og2 kc t, og3 kc t]

/-- All components of a triple lie below `n`. -/
def inRange (n : ℕ) (t : Triple) : Prop := t.1 < n ∧ t.2.1 < n ∧ t.2.2 < n

instance (n : ℕ) (t : Triple) : Decidable (inRange n t) := by
  unfold inRange; infer_instance

/-- A conservation tensor is well formed (orbit closed) when, for every
in-range triple `(p,q,r)` with `s = kc (p,q,r)`, the conserving index is in
range and `kc (r,s,p) = q`, `kc (q,p,s) = r`, `kc (s,r,q) = p` — the algebraic
identities satisfied by momentum conservation on a well-formed k-point grid. -/
def wfKconserv (n : ℕ) (kc : Triple → ℕ) : Prop :=
  ∀ p, p < n → ∀ q, q < n → ∀ r, r < n →
    kc (p,q,r) < n ∧ kc (og1 kc (p,q,r)) = q ∧
      kc (og2 kc (p,q,r)) = r ∧ kc (og3 kc (p,q,r)) = p

instance (n : ℕ) (kc : Triple → ℕ) : Decidable (wfKconserv n kc) := by
  unfold wfKconserv; infer_instance

/-- Three k-points on a third-lattice: `kconserv (p,q,r) = (p - q + r) mod 3`,
a well-formed tensor with an orbit of four distinct members. -/
def thirdKpts : List Vec3 := [![0, 0, 0], ![1/3, 0, 0], ![2/3, 0, 0]]

/-- State of the scan in `unique(kpts)` (lines 43-55): the uniques collected
so far, their first-occurrence indices, the inverse map (initially
`np.zeros`), and the seen marks. -/
structure UniqueState where
  uniq_kpts : List Vec3
  uniq_index : List ℕ
  uniq_inverse : ℕ → ℕ
  seen : ℕ → Bool

/-- The row mask of line 52: `abs(kpt - kpts[j]).sum() < KPT_DIFF_TOL`. -/
def closeTo (x y : Vec3) : Bool := decide ((∑ w, |x w - y w|) < KPT_DIFF_TOL)

/-- One iteration of the loop of `unique`: a not-yet-seen element becomes a
new unique representative; every element within tolerance of it (including
itself) gets the current group id and is marked seen. -/
def uniqueStep (kpts : List Vec3) (st : UniqueState) (i : ℕ) : UniqueState :=
  if st.seen i then st
  else
    let kpt := kv kpts i
    { uniq_kpts := st.uniq_kpts ++ [kpt]
      uniq_index := st.uniq_index ++ [i]
      uniq_inverse := fun j =>
        if closeTo kpt (kv kpts j) then st.uniq_kpts.length else st.uniq_inverse j
      seen := fun j => st.seen j || closeTo kpt (kv kpts j) }

/-- Embedding of `unique(kpts)`: returns
`(uniq_kpts, uniq_index, uniq_inverse)`. -/
def unique (kpts : List Vec3) : List Vec3 × List ℕ × (ℕ → ℕ) :=
  let st := (List.range kpts.length).foldl (uniqueStep kpts)
    ⟨[], [], fun _ => 0, fun _ => false⟩
  (st.uniq_kpts, st.uniq_index, st.uniq_inverse)

/-- Invariant of the `unique` scan: every seen element has an in-range group
id whose representative is within tolerance. -/
def UniqueInv (kpts : List Vec3) (st : UniqueState) : Prop :=
  ∀ j, st.seen j = true →
    st.uniq_inverse j < st.uniq_kpts.length ∧
    (∑ w, |kv kpts j w - (st.uniq_kpts.getD (st.uniq_inverse j) zero3) w|)
      < KPT_DIFF_TOL

/-- A dense numpy array over element type `α`: a shape, a dtype tag and the
row-major data.  A genuine `ndarray` satisfies `shape.prod = data.length`;
this well-formedness is carried as a hypothesis where needed. -/
structure NDArr (α : Type) where
  shape : List ℕ
  dtype : ℕ
  data : List α
deriving Repr, DecidableEq

/-- A nested Python structure of lists/tuples whose leaves are numpy arrays.
Lists and tuples are both sequences for the codec (`isinstance(data, (list,
tuple))`), so a single `node` constructor models both. -/
inductive Nested (α : Type) where
  | arr (a : NDArr α)
  | node (children : List (Nested α))
deriving Repr

/-- A descriptor as produced by `describe_nested`: a dict of type `"array"`
carrying a shape, or a list of descriptors.  `describe_nested` never produces
`"composite"` descriptors (those are only hand-built by callers and require
the `destination` parameter of `vector_to_nested`), so the descriptor grammar
relevant to the codec claims has these two cases. -/
inductive Struct where
  | array (shape : List ℕ)
  | node (children : List Struct)
deriving Repr

/-- Tag for numpy's default dtype `float64`, used by `np.empty(n, dtype=None)`. -/
def dtypeFloat64 : ℕ := 0

mutual

/-- Embedding of `describe_nested(data)` (lines 207-237): returns the
descriptor, the total scalar count, and the common dtype (`none` when no
dtype has been encountered).  Two successive dtypes that are both present and
differ raise the `ValueError` of line 232 (tag `typeMismatch`). -/
def describe_nested {α : Type} : Nested α → Except PyError (Struct × ℕ × Option ℕ)
  | .arr a => .ok (.array a.shape, a.data.length, some a.dtype)
  | .node l => do
    let (struct, total_size, dt) ← describeChildren ([], 0, none) l
    .ok (.node struct, total_size, dt)

/-- The loop of the sequence case of `describe_nested`, carrying the struct
list, the running total and the dtype accumulator.  Line 234 stores the
child dtype unconditionally, so a leafless child resets the accumulator to
`none`. -/
def describeChildren {α : Type} (acc : List Struct × ℕ × Option ℕ) :
    List (Nested α) → Except PyError (List Struct × ℕ × Option ℕ)
  | [] => .ok acc
  | c :: cs => do
    let (cStruct, cSize, cDt) ← describe_nested c
    match acc.2.2, cDt with
    | some d, some d2 =>
      if d2 ≠ d then .error .typeMismatch
      else describeChildren (acc.1 ++ [cStruct], acc.2.1 + cSize, cDt) cs
    | _, _ => describeChildren (acc.1 ++ [cStruct], acc.2.1 + cSize, cDt) cs

end

/-- Slice assignment `destination[offset:offset+len(src)] = src` on a one
dimensional buffer. -/
def listWrite {α : Type} (dest : List α) (off : ℕ) (src : List α) : List α :=
  dest.take off ++ src ++ dest.drop (off + src.length)

mutual

/-- The recursive filling pass of `nested_to_vector` (lines 259-266): copies
each leaf's row-major data into the next contiguous slice of the destination,
depth first, left to right; returns the updated destination and offset. -/
def fillNested {α : Type} : Nested α → List α → ℕ → List α × ℕ
  | .arr a, dest, off => (listWrite dest off a.data, off + a.data.length)
  | .node l, dest, off => fillList l dest off

/-- The loop over a sequence in the filling pass. -/
def fillList {α : Type} : List (Nested α) → List α → ℕ → List α × ℕ
  | [], dest, off => (dest, off)
  | c :: cs, dest, off =>
    match fillNested c dest off with
    | (dest2, off2) => fillList cs dest2 off2

end

/-- Embedding of `nested_to_vector(data)` with no destination supplied (lines
252-269): describes the data, allocates `np.empty(total_size, dtype)` (dtype
defaults to float64 when `None`), fills it and returns the vector together
with the descriptor. -/
def nested_to_vector {α : Type} [Inhabited α] (data : Nested α) :
    Except PyError (NDArr α × Struct) := do
  let (struct, total_size, dt) ← describe_nested data
  let destination := List.replicate total_size (default : α)
  match fillNested data destination 0 with
  | (filled, _off) => .ok (⟨[total_size], dt.getD dtypeFloat64, filled⟩, struct)

/-- The slice `vector[offset:]` of a one-dimensional array. -/
def vecDrop {α : Type} (v : NDArr α) (k : ℕ) : NDArr α :=
  ⟨[v.data.length - k], v.dtype, v.data.drop k⟩

mutual

/-- Embedding of `vector_to_nested(vector, struct, copy, ensure_size_matches)`
with the default `destination=None` (lines 274-398).  Descriptors produced by
`describe_nested` contain only array and sequence nodes, so the composite
branch — which is only reachable with a hand-built descriptor and allocates a
destination — does not occur on the codec round-trip path and is not
modelled.  The result pairs the restored structure with the number of vector
elements consumed (the code returns the count only when
`ensure_size_matches` is false; returning it always loses nothing). -/
def vector_to_nested {α : Type} (vector : NDArr α) (struct : Struct)
    (copy ensure_size_matches : Bool) : Except PyError (Nested α × ℕ) :=
  if vector.shape.length ≠ 1 then .error .rankError
  else
    match struct with
    | .array shape =>
      let expected_size := shape.prod
      if ensure_size_matches ∧ vector.data.length ≠ expected_size then
        .error .sizeMismatch
      else if vector.data.length < expected_size then .error .sizeMismatch
      else
        .ok (.arr ⟨shape, vector.dtype, vector.data.take expected_size⟩,
          expected_size)
    | .node children => do
      let (result, offset) ← restoreChildren vector 0 copy children
      if ensure_size_matches ∧ vector.data.length ≠ offset then
        .error .sizeMismatch
      else .ok (.node result, offset)

/-- The loop of the sequence case of `vector_to_nested` (lines 360-373): each
child consumes a prefix of `vector[offset:]` with `ensure_size_matches`
false, advancing the offset. -/
def restoreChildren {α : Type} (vector : NDArr α) (offset : ℕ) (copy : Bool) :
    List Struct → Except PyError (List (Nested α) × ℕ)
  | [] => .ok ([], offset)
  | s :: ss => do
    let (nested, size) ← vector_to_nested (vecDrop vector offset) s copy false
    let (rest, final) ← restoreChildren vector (offset + size) copy ss
    .ok (nested :: rest, final)

end

mutual

/-- The array leaves of a nested structure, in depth-first order. -/
def leavesList {α : Type} : Nested α → List (NDArr α)
  | .arr a => [a]
  | .node l => leavesListL l

/-- The array leaves of a list of nested structures. -/
def leavesListL {α : Type} : List (Nested α) → List (NDArr α)
  | [] => []
  | c :: cs => leavesList c ++ leavesListL cs

end

mutual

/-- Concatenation of all leaf data in depth-first, row-major order: the
contents of the flattened vector. -/
def flatData {α : Type} : Nested α → List α
  | .arr a => a.data
  | .node l => flatDataL l

/-- Concatenation of all leaf data of a list of nested structures. -/
def flatDataL {α : Type} : List (Nested α) → List α
  | [] => []
  | c :: cs => flatData c ++ flatDataL cs

end

mutual

/-- The descriptor that `describe_nested` produces for a structure. -/
def structOf {α : Type} : Nested α → Struct
  | .arr a => .array a.shape
  | .node l => .node (structOfL l)

/-- The descriptors of a list of nested structures. -/
def structOfL {α : Type} : List (Nested α) → List Struct
  | [] => []
  | c :: cs => structOf c :: structOfL cs

end

/-- Every leaf is a well-formed ndarray: its data length matches its shape. -/
def leavesWF {α : Type} (d : Nested α) : Prop :=
  ∀ a ∈ leavesList d, a.shape.prod = a.data.length

/-- Every leaf declares the same element type `dt`. -/
def sharedDtype {α : Type} (d : Nested α) (dt : ℕ) : Prop :=
  ∀ a ∈ leavesList d, a.dtype = dt

mutual

/-- Structural equality up to dtype: same nesting shape, same leaf shapes and
the same leaf values elementwise — the sense in which the codec round trip
reproduces the original data. -/
def sameValues {α : Type} [DecidableEq α] : Nested α → Nested α → Bool
  | .arr a, .arr b => decide (a.shape = b.shape) && decide (a.data = b.data)
  | .node l1, .node l2 => sameValuesL l1 l2
  | .arr _, .node _ => false
  | .node _, .arr _ => false

/-- Pointwise `sameValues` on lists of equal length. -/
def sameValuesL {α : Type} [DecidableEq α] :
    List (Nested α) → List (Nested α) → Bool
  | [], [] => true
  | c :: cs, d :: ds => sameValues c d && sameValuesL cs ds
  | [], _ :: _ => false
  | _ :: _, [] => false

end

/-- Two structures are array leaves carrying different dtypes. -/
def leafPairMismatch {α : Type} : Nested α → Nested α → Bool
  | .arr a, .arr b => decide (a.dtype ≠ b.dtype)
  | _, _ => false

mutual

/-- Some node of the structure has two consecutive children that are both
array leaves with different dtypes — the situation in which the dtype
accumulator of `describe_nested` is guaranteed to detect a mismatch. -/
def adjLeafMismatch {α : Type} : Nested α → Bool
  | .arr _ => false
  | .node l => adjLeafMismatchL l

/-- The list form of `adjLeafMismatch`. -/
def adjLeafMismatchL {α : Type} : List (Nested α) → Bool
  | [] => false
  | [c] => adjLeafMismatch c
  | c :: d :: rest =>
    leafPairMismatch c d || adjLeafMismatch c || adjLeafMismatchL (d :: rest)

end

/-- C8 counterexample data: two leaves with dtypes 0 and 1 separated by a
leafless node. -/
def ce8 : Nested ℚ := .node [.arr ⟨[0], 0, []⟩, .node [], .arr ⟨[0], 1, []⟩]

/-- C8 witness data: two adjacent leaves with dtypes 0 and 1. -/
def d8w : Nested ℚ := .node [.arr ⟨[0], 0, []⟩, .arr ⟨[0], 1, []⟩]

/-- C2 witness data: a depth-2 nesting of three well-formed rational arrays
sharing dtype tag 5. -/
def d2w : Nested ℚ :=
  .node [.arr ⟨[2], 5, [1/2, 3]⟩, .node [.arr ⟨[1, 1], 5, [7]⟩],
    .arr ⟨[0, 3], 5, []⟩]

/-- Invariant maintained by the `KptsHelper.__init__` scan: every map entry
lists the four orbit images of its in-range key; a triple is completed exactly
when some entry lists it; no triple is listed by two entries; and the stored
operation at a key whose non-identity images all differ from it is 0. -/
structure ScanInv (n : ℕ) (kc : Triple → ℕ) (st : BuildState) : Prop where
  map_img : ∀ e ∈ st.symm_map, e.2 = orbitList kc e.1 ∧ inRange n e.1
  comp_iff : ∀ u, st.completed u = true ↔ ∃ e ∈ st.symm_map, u ∈ e.2
  disj : ∀ u, (st.symm_map.countP fun e => decide (u ∈ e.2)) ≤ 1
  oper_zero : ∀ e ∈ st.symm_map,
    og1 kc e.1 ≠ e.1 → og2 kc e.1 ≠ e.1 → og3 kc e.1 ≠ e.1 → st.oper e.1 = 0

/-- A dense multi-dimensional numpy array of rationals (exact floats): a rank,
a shape, and a total entry function on multi-indices (as in numpy's underlying
buffer; only indices inside the shape box are ever summed). -/
structure Tensor where
  m : ℕ
  shape : Fin m → ℕ
  entry : (Fin m → ℕ) → ℚ

/-- The simultaneous tuple assignment `a[i], a[j] = a[j], a[i]` on an index
array `a` (both right-hand sides are read before either store). -/
def swapAt {m : ℕ} (f : Fin m → Fin m) (i j : Fin m) : Fin m → Fin m :=
  fun k => if k = i then f j else if k = j then f i else f k

/-- Generalised inverse of an axis map: the first position mapped to `p`
(numpy's `transpose` places source axis `axes[k]` at position `k`, so the
transpose reads source position `p` from `idx (axes⁻¹ p)`). -/
def finInvFun {m : ℕ} (f : Fin m → Fin m) (p : Fin m) : Fin m :=
  match (List.finRange m).find? (fun k => f k == p) with
  | some k => k
  | none => p

/-- `array.transpose(axes)`: axis `k` of the result is axis `axes k` of the
source. -/
def npTranspose (t : Tensor) (axes : Fin t.m → Fin t.m) : Tensor where
  m := t.m
  shape := fun k => t.shape (axes k)
  entry := fun idx => t.entry (fun p => idx (finInvFun axes p))

/-- numpy broadcast compatibility of two same-rank shapes: on each axis the
extents agree or one of them is 1. -/
def npAddCompat {m : ℕ} (s1 s2 : Fin m → ℕ) : Bool :=
  decide (∀ k, s1 k = s2 k ∨ s1 k = 1 ∨ s2 k = 1)

/-- Index into one operand of a broadcast operation: axes of extent 1 are
pinned to position 0. -/
def broadcastIdx {m : ℕ} (s : Fin m → ℕ) (idx : Fin m → ℕ) : Fin m → ℕ :=
  fun k => if s k = 1 then 0 else idx k

/-- Broadcast elementwise sum of two same-rank arrays. -/
def npBroadcastAdd (m : ℕ) (s1 s2 : Fin m → ℕ) (e1 e2 : (Fin m → ℕ) → ℚ) :
    Tensor where
  m := m
  shape := fun k => max (s1 k) (s2 k)
  entry := fun idx => e1 (broadcastIdx s1 idx) + e2 (broadcastIdx s2 idx)

/-- Sum of squared entries over the shape box; `np.linalg.norm` with default
arguments is its square root for an array of any rank. -/
def normSq (t : Tensor) : ℚ :=
  ∑ idx : ((k : Fin t.m) → Fin (t.shape k)), t.entry (fun k => (idx k : ℕ)) ^ 2

/-- The `out_array_indices` permutation of `check_kpt_antiperm_symmetry`
(lines 162–167): start from `np.arange`, swap positions `idx1`, `idx2`
(k-point axes), then swap positions `2*nparticles-1 + idx1`,
`2*nparticles-1 + idx2` (orbital axes).  The bound proofs come from the
asserted `idx < 2*nparticles-1` and `nparticles = (m+1)/4`. -/
def outAxes (m idx1 idx2 : ℕ)
    (h : idx1 < 2 * ((m + 1) / 4) - 1 ∧ idx2 < 2 * ((m + 1) / 4) - 1) :
    Fin m → Fin m :=
  swapAt (swapAt (fun k => k) ⟨idx1, by omega⟩ ⟨idx2, by omega⟩)
    ⟨2 * ((m + 1) / 4) - 1 + idx1, by omega⟩
    ⟨2 * ((m + 1) / 4) - 1 + idx2, by omega⟩

/-- `check_kpt_antiperm_symmetry(array, idx1, idx2, tolerance)` (lines
107–170).  `nparticles = (len(array.shape) + 1) / 4` is embedded as integer
division (exact on rank `4*nparticles - 1` inputs); index non-negativity is
carried by the `ℕ` index type, the second `assert` maps to `assertionError`,
`nparticles > 3` raises `NotImplementedError`, and the numpy sum
`array + array.transpose(out_array_indices)` raises a broadcast `ValueError`
when the two shapes are incompatible.  Otherwise the returned numpy boolean
is the proposition `norm(array + transpose) < tolerance`. -/
def check_kpt_antiperm_symmetry (array : Tensor) (idx1 idx2 : ℕ)
    (tolerance : ℝ) : Except PyError Prop :=
  if h : idx1 < 2 * ((array.m + 1) / 4) - 1 ∧
      idx2 < 2 * ((array.m + 1) / 4) - 1 then
    if 3 < (array.m + 1) / 4 then
      Except.error PyError.notImplementedError
    else
      if npAddCompat array.shape
          (npTranspose array (outAxes array.m idx1 idx2 h)).shape then
        Except.ok (Real.sqrt (normSq (npBroadcastAdd array.m array.shape
          (npTranspose array (outAxes array.m idx1 idx2 h)).shape array.entry
          (npTranspose array (outAxes array.m idx1 idx2 h)).entry)) <
          tolerance)
      else
        Except.error PyError.broadcastError
  else Except.error PyError.assertionError

/-- Spec-side residual for C5: the squared norm of the tensor plus its
transpose under the axis permutation `σ`. -/
def antisymResidual (t : Tensor) (σ : Equiv.Perm (Fin t.m)) : ℚ :=
  ∑ idx : ((k : Fin t.m) → Fin (t.shape k)),
    (t.entry (fun k => (idx k : ℕ)) + t.entry (fun k => (idx (σ k) : ℕ))) ^ 2

/-- C5 counterexample tensor: a rank-7 (2-particle) all-zero array of shape
(1,1,1,2,1,3,1). -/
def t7 : Tensor := ⟨7, ![1, 1, 1, 2, 1, 3, 1], fun _ => 0⟩

/-- C5 witness tensor: a rank-3 (1-particle) all-zero array of shape
(1,1,2). -/
def w3 : Tensor := ⟨3, ![1, 1, 2], fun _ => 0⟩

/-- C5 witness permutation: the (degenerate) double swap at
`idx1 = idx2 = 0` for a 1-particle array. -/
def w3sigma : Equiv.Perm (Fin 3) :=
  (Equiv.swap ⟨2, by omega⟩ ⟨2, by omega⟩).trans
    (Equiv.swap ⟨0, by omega⟩ ⟨0, by omega⟩)

theorem foldl_pick_zero (p : ℕ → Bool) (n : ℕ) (h : ∀ N, N < n → p N = false) :
    (List.range n).foldl (fun acc N => if p N then N else acc) 0 = 0 := by
  induction n with
  | zero => rfl
  | succ m ih =>
    rw [List.range_succ, List.foldl_append]
    simp only [List.foldl_cons, List.foldl_nil, h m (Nat.lt_succ_self m)]
    exact ih fun N hN => h N (Nat.lt_succ_of_lt hN)

theorem foldl_pick_max (p : ℕ → Bool) (n s : ℕ) (hs : s < n) (hp : p s = true)
    (hmax : ∀ t, t < n → p t = true → t ≤ s) :
    (List.range n).foldl (fun acc N => if p N then N else acc) 0 = s := by
  induction n with
  | zero => omega
  | succ m ih =>
    rw [List.range_succ, List.foldl_append]
    simp only [List.foldl_cons, List.foldl_nil]
    rcases Nat.lt_succ_iff_lt_or_eq.mp hs with hlt | heq
    · have hm : p m = false := by
        cases hpm : p m
        · rfl
        · exact absurd (hmax m (Nat.lt_succ_self m) hpm) (by omega)
      rw [hm]
      simp only [Bool.false_eq_true, if_false]
      exact ih hlt fun t ht => hmax t (Nat.lt_succ_of_lt ht)
    · subst heq
      rw [hp]
      simp

/-- C9: when no candidate satisfies the integer-residual test for a triple,
`get_kconserv` raises no error and leaves the zero-initialised entry, which is
indistinguishable from a genuine conserving index 0. -/
theorem get_kconserv_no_candidate_returns_zero (a : Mat3) (kpts : List Vec3)
    (p q r : ℕ) (h : ∀ N, N < kpts.length → conserves a kpts p q r N = false) :
    get_kconserv a kpts p q r = 0 :=
  foldl_pick_zero _ _ h

theorem get_kconserv_no_candidate_returns_zero_witness :
    (∀ N, N < badKpts.length → conserves idMat badKpts 0 1 0 N = false) ∧
      get_kconserv idMat badKpts 0 1 0 = 0 :=
  ⟨by with_unfolding_all decide,
    get_kconserv_no_candidate_returns_zero idMat badKpts 0 1 0
      (by with_unfolding_all decide)⟩

/-- C10: when several candidates satisfy the integer-residual test for a
triple, `get_kconserv` returns the largest of them: candidates are scanned in
increasing index order and each satisfying candidate overwrites the previous
assignment. -/
theorem get_kconserv_returns_largest (a : Mat3) (kpts : List Vec3) (p q r s : ℕ)
    (hs : s < kpts.length) (hp : conserves a kpts p q r s = true)
    (hmax : ∀ t, t < kpts.length → conserves a kpts p q r t = true → t ≤ s)
    (_hseveral : ∃ t, t < kpts.length ∧ t ≠ s ∧ conserves a kpts p q r t = true) :
    get_kconserv a kpts p q r = s :=
  foldl_pick_max _ _ s hs hp hmax

theorem get_kconserv_returns_largest_witness :
    get_kconserv idMat dupKpts 0 0 0 = 1 :=
  get_kconserv_returns_largest idMat dupKpts 0 0 0 1 (by with_unfolding_all decide) (by with_unfolding_all decide)
    (by with_unfolding_all decide) ⟨0, by with_unfolding_all decide⟩

/-- C1 counterexample: with the identity lattice transform and the k-points
`ceKpts1`, the triple `(0,1,0)` has exactly one candidate (`s = 1`) whose
residual vector is componentwise below `1e-9` — yet `get_kconserv` returns 0,
because the code compares the SUM of the componentwise residuals (here
`1.2e-9`) against `1e-9`. -/
theorem get_kconserv_componentwise_counterexample :
    (claimComponentwiseTest idMat ceKpts1 0 1 0 1 ∧
      (∀ t, t < 2 → claimComponentwiseTest idMat ceKpts1 0 1 0 t → t = 1)) ∧
      get_kconserv idMat ceKpts1 0 1 0 = 0 ∧ get_kconserv idMat ceKpts1 0 1 0 ≠ 1 := by
  refine ⟨⟨by with_unfolding_all decide, by with_unfolding_all decide⟩, by with_unfolding_all decide, by with_unfolding_all decide⟩

/-- C1 amended: for every lattice transform `a` and k-point list, and every
triple `(p,q,r)` such that exactly one index `s` makes the SUM over components
of the residual of `(kpts[p] - kpts[q] + kpts[r] - kpts[s]) . a` from its
nearest integer vector fall below `1e-9` (the test the code performs),
`get_kconserv` returns that `s` at entry `(p,q,r)`. -/
theorem get_kconserv_unique_conserving (a : Mat3) (kpts : List Vec3) (p q r s : ℕ)
    (hs : s < kpts.length) (hp : conserves a kpts p q r s = true)
    (huniq : ∀ t, t < kpts.length → conserves a kpts p q r t = true → t = s) :
    get_kconserv a kpts p q r = s :=
  foldl_pick_max _ _ s hs hp fun t ht hpt => le_of_eq (huniq t ht hpt)

theorem get_kconserv_unique_conserving_witness :
    get_kconserv idMat parityKpts 1 0 0 = 1 :=
  get_kconserv_unique_conserving idMat parityKpts 1 0 0 1 (by with_unfolding_all decide) (by with_unfolding_all decide)
    (by with_unfolding_all decide)

theorem KGroup.rows_length (kpts : List Vec3) (g : KGroup) :
    (g.rows kpts).length = g.npSize := by
  cases g <;> simp [KGroup.rows, KGroup.npSize]

theorem length_flatMap_const {α β : Type} (l : List α) (f : α → List β) (n : ℕ)
    (h : ∀ x ∈ l, (f x).length = n) : (l.flatMap f).length = l.length * n := by
  induction l with
  | nil => simp
  | cons x xs ih =>
    rw [List.flatMap_cons, List.length_append, h x (by simp),
      ih fun y hy => h y (List.mem_cons_of_mem _ hy), List.length_cons]
    ring

theorem prod_filter_nonscalar (l : List KGroup) :
    ((l.filter fun g => !g.isScalar).map KGroup.npSize).prod
      = (l.map KGroup.npSize).prod := by
  induction l with
  | nil => rfl
  | cons g gs ih =>
    cases g with
    | scalar i =>
      rw [List.filter_cons_of_neg (by simp [KGroup.isScalar]), ih,
        List.map_cons, List.prod_cons]
      simp [KGroup.npSize]
    | seq l =>
      rw [List.filter_cons_of_pos (by simp [KGroup.isScalar]), List.map_cons,
        List.prod_cons, List.map_cons, List.prod_cons, ih]

/-- C6 amended: the shape of the array returned by `get_kconserv3` is the
sequence of the five group sizes with the axes of the groups given as plain
integers removed; a group given as a sequence keeps its axis even when it has
size 1. -/
theorem get_kconserv3_squeezes_scalar_axes (a : Mat3) (kpts : List Vec3)
    (gi gj gk ga gb : KGroup) :
    ∃ arr, get_kconserv3 a kpts [gi, gj, gk, ga, gb] = Except.ok arr ∧
      arr.shape = ([gi, gj, gk, ga, gb].filter fun g => !g.isScalar).map KGroup.npSize := by
  have hlen : ((gi.rows kpts).flatMap fun vi =>
      (gj.rows kpts).flatMap fun vj =>
      (gk.rows kpts).flatMap fun vk =>
      (ga.rows kpts).flatMap fun va =>
      (gb.rows kpts).map fun vb => kconserv3Entry a kpts vi vj vk va vb).length
      = gi.npSize * (gj.npSize * (gk.npSize * (ga.npSize * gb.npSize))) := by
    rw [length_flatMap_const _ _ (gj.npSize * (gk.npSize * (ga.npSize * gb.npSize)))
        ?_, KGroup.rows_length]
    intro vi _
    rw [length_flatMap_const _ _ (gk.npSize * (ga.npSize * gb.npSize)) ?_,
      KGroup.rows_length]
    intro vj _
    rw [length_flatMap_const _ _ (ga.npSize * gb.npSize) ?_, KGroup.rows_length]
    intro vk _
    rw [length_flatMap_const _ _ gb.npSize ?_, KGroup.rows_length]
    intro va _
    rw [List.length_map, KGroup.rows_length]
  have hprod : (([gi, gj, gk, ga, gb].filter fun g => !g.isScalar).map
      KGroup.npSize).prod
      = gi.npSize * (gj.npSize * (gk.npSize * (ga.npSize * gb.npSize))) := by
    rw [prod_filter_nonscalar]
    simp [List.prod_cons]
  refine ⟨⟨([gi, gj, gk, ga, gb].filter fun g => !g.isScalar).map KGroup.npSize,
    (gi.rows kpts).flatMap fun vi =>
      (gj.rows kpts).flatMap fun vj =>
      (gk.rows kpts).flatMap fun vk =>
      (ga.rows kpts).flatMap fun va =>
      (gb.rows kpts).map fun vb => kconserv3Entry a kpts vi vj vk va vb⟩, ?_, rfl⟩
  simp only [get_kconserv3, npReshape]
  rw [if_pos (by rw [hlen, hprod])]

/-- C6 counterexample: with four sequence groups of size 1 and one integer
group, the returned shape is `[1,1,1,1]` (the sequence groups keep their
axes), not the claim's all-singletons-removed shape `[]`. -/
theorem get_kconserv3_squeeze_counterexample :
    get_kconserv3 idMat gammaKpts ce6 = Except.ok ⟨[1, 1, 1, 1], [0]⟩ ∧
      ¬ (([1, 1, 1, 1] : List ℕ)
          = (ce6.map KGroup.npSize).filter fun s => !(s == 1)) := by
  constructor
  · with_unfolding_all decide
  · with_unfolding_all decide

theorem mem_loop_kkk (n : ℕ) (t : Triple) : t ∈ loop_kkk n ↔ inRange n t := by
  rcases t with ⟨p, q, r⟩
  constructor
  · intro h
    simp only [loop_kkk, List.mem_flatMap, List.mem_map, List.mem_range] at h
    obtain ⟨a, ha, b, hb, c, hc, heq⟩ := h
    cases heq
    exact ⟨ha, hb, hc⟩
  · rintro ⟨hp, hq, hr⟩
    simp only [loop_kkk, List.mem_flatMap, List.mem_map, List.mem_range]
    exact ⟨p, hp, q, hq, r, hr, rfl⟩

theorem wf_at {n : ℕ} {kc : Triple → ℕ} (h : wfKconserv n kc) {t : Triple}
    (ht : inRange n t) :
    kc t < n ∧ kc (og1 kc t) = t.2.1 ∧ kc (og2 kc t) = t.2.2 ∧ kc (og3 kc t) = t.1 := by
  rcases t with ⟨p, q, r⟩
  exact h p ht.1 q ht.2.1 r ht.2.2

theorem inRange_og1 {n : ℕ} {kc : Triple → ℕ} (h : wfKconserv n kc) {t : Triple}
    (ht : inRange n t) : inRange n (og1 kc t) :=
  ⟨ht.2.2, (wf_at h ht).1, ht.1⟩

theorem inRange_og2 {n : ℕ} {kc : Triple → ℕ} (h : wfKconserv n kc) {t : Triple}
    (ht : inRange n t) : inRange n (og2 kc t) :=
  ⟨ht.2.1, ht.1, (wf_at h ht).1⟩

theorem inRange_og3 {n : ℕ} {kc : Triple → ℕ} (h : wfKconserv n kc) {t : Triple}
    (ht : inRange n t) : inRange n (og3 kc t) :=
  ⟨(wf_at h ht).1, ht.2.2, ht.2.1⟩

theorem og1_og1 {n : ℕ} {kc : Triple → ℕ} (h : wfKconserv n kc) {t : Triple}
    (ht : inRange n t) : og1 kc (og1 kc t) = t := by
  rcases t with ⟨p, q, r⟩
  have hw := h p ht.1 q ht.2.1 r ht.2.2
  simp only [og1] at hw ⊢
  rw [hw.2.1]

theorem og2_og2 {n : ℕ} {kc : Triple → ℕ} (h : wfKconserv n kc) {t : Triple}
    (ht : inRange n t) : og2 kc (og2 kc t) = t := by
  rcases t with ⟨p, q, r⟩
  have hw := h p ht.1 q ht.2.1 r ht.2.2
  simp only [og2] at hw ⊢
  rw [hw.2.2.1]

theorem og3_og3 {n : ℕ} {kc : Triple → ℕ} (h : wfKconserv n kc) {t : Triple}
    (ht : inRange n t) : og3 kc (og3 kc t) = t := by
  rcases t with ⟨p, q, r⟩
  have hw := h p ht.1 q ht.2.1 r ht.2.2
  simp only [og3] at hw ⊢
  rw [hw.2.2.2]

theorem og2_og1 {n : ℕ} {kc : Triple → ℕ} (h : wfKconserv n kc) {t : Triple}
    (ht : inRange n t) : og2 kc (og1 kc t) = og3 kc t := by
  rcases t with ⟨p, q, r⟩
  have hw := h p ht.1 q ht.2.1 r ht.2.2
  simp only [og1, og2, og3] at hw ⊢
  rw [hw.2.1]

theorem og1_og2 {n : ℕ} {kc : Triple → ℕ} (h : wfKconserv n kc) {t : Triple}
    (ht : inRange n t) : og1 kc (og2 kc t) = og3 kc t := by
  rcases t with ⟨p, q, r⟩
  have hw := h p ht.1 q ht.2.1 r ht.2.2
  simp only [og1, og2, og3] at hw ⊢
  rw [hw.2.2.1]

theorem og1_og3 {n : ℕ} {kc : Triple → ℕ} (h : wfKconserv n kc) {t : Triple}
    (ht : inRange n t) : og1 kc (og3 kc t) = og2 kc t := by
  rcases t with ⟨p, q, r⟩
  have hw := h p ht.1 q ht.2.1 r ht.2.2
  simp only [og1, og2, og3] at hw ⊢
  rw [hw.2.2.2]

theorem og3_og1 {n : ℕ} {kc : Triple → ℕ} (h : wfKconserv n kc) {t : Triple}
    (ht : inRange n t) : og3 kc (og1 kc t) = og2 kc t := by
  rcases t with ⟨p, q, r⟩
  have hw := h p ht.1 q ht.2.1 r ht.2.2
  simp only [og1, og2, og3] at hw ⊢
  rw [hw.2.1]

theorem og2_og3 {n : ℕ} {kc : Triple → ℕ} (h : wfKconserv n kc) {t : Triple}
    (ht : inRange n t) : og2 kc (og3 kc t) = og1 kc t := by
  rcases t with ⟨p, q, r⟩
  have hw := h p ht.1 q ht.2.1 r ht.2.2
  simp only [og1, og2, og3] at hw ⊢
  rw [hw.2.2.2]

theorem og3_og2 {n : ℕ} {kc : Triple → ℕ} (h : wfKconserv n kc) {t : Triple}
    (ht : inRange n t) : og3 kc (og2 kc t) = og1 kc t := by
  rcases t with ⟨p, q, r⟩
  have hw := h p ht.1 q ht.2.1 r ht.2.2
  simp only [og1, og2, og3] at hw ⊢
  rw [hw.2.2.1]

theorem mem_orbitList_iff {kc : Triple → ℕ} {t u : Triple} :
    u ∈ orbitList kc t ↔ u = t ∨ u = og1 kc t ∨ u = og2 kc t ∨ u = og3 kc t := by
  simp [orbitList]

theorem orbitList_symm {n : ℕ} {kc : Triple → ℕ} (h : wfKconserv n kc)
    {t u : Triple} (ht : inRange n t) (hu : u ∈ orbitList kc t) :
    t ∈ orbitList kc u := by
  rw [mem_orbitList_iff] at hu ⊢
  rcases hu with rfl | rfl | rfl | rfl
  · exact Or.inl rfl
  · exact Or.inr (Or.inl (og1_og1 h ht).symm)
  · exact Or.inr (Or.inr (Or.inl (og2_og2 h ht).symm))
  · exact Or.inr (Or.inr (Or.inr (og3_og3 h ht).symm))

theorem orbitList_trans {n : ℕ} {kc : Triple → ℕ} (h : wfKconserv n kc)
    {t u v : Triple} (ht : inRange n t) (hu : u ∈ orbitList kc t)
    (hv : v ∈ orbitList kc u) : v ∈ orbitList kc t := by
  rw [mem_orbitList_iff] at hu hv ⊢
  rcases hu with rfl | rfl | rfl | rfl
  · exact hv
  · rcases hv with rfl | rfl | rfl | rfl
    · exact Or.inr (Or.inl rfl)
    · exact Or.inl (og1_og1 h ht)
    · exact Or.inr (Or.inr (Or.inr (og2_og1 h ht)))
    · exact Or.inr (Or.inr (Or.inl (og3_og1 h ht)))
  · rcases hv with rfl | rfl | rfl | rfl
    · exact Or.inr (Or.inr (Or.inl rfl))
    · exact Or.inr (Or.inr (Or.inr (og1_og2 h ht)))
    · exact Or.inl (og2_og2 h ht)
    · exact Or.inr (Or.inl (og3_og2 h ht))
  · rcases hv with rfl | rfl | rfl | rfl
    · exact Or.inr (Or.inr (Or.inr rfl))
    · exact Or.inr (Or.inr (Or.inl (og1_og3 h ht)))
    · exact Or.inr (Or.inl (og2_og3 h ht))
    · exact Or.inl (og3_og3 h ht)

theorem inRange_orbit {n : ℕ} {kc : Triple → ℕ} (h : wfKconserv n kc)
    {t u : Triple} (ht : inRange n t) (hu : u ∈ orbitList kc t) : inRange n u := by
  rw [mem_orbitList_iff] at hu
  rcases hu with rfl | rfl | rfl | rfl
  · exact ht
  · exact inRange_og1 h ht
  · exact inRange_og2 h ht
  · exact inRange_og3 h ht

theorem buildStep_fresh {kc : Triple → ℕ} {st : BuildState} {t : Triple}
    (hcf : st.completed t = false) :
    buildStep kc st t = {
      completed := fun u => if u ∈ orbitList kc t then true else st.completed u
      symm_map := st.symm_map ++ [(t, orbitList kc t)]
      oper := Function.update (Function.update (Function.update
        (Function.update st.oper t 0) (og1 kc t) 1) (og2 kc t) 2)
        (og3 kc t) 3 } := by
  rcases t with ⟨kp, kq, kr⟩
  simp only [buildStep, hcf, Bool.false_eq_true, if_false]
  congr 1
  funext u
  refine if_congr ?_ rfl rfl
  simp [orbitList, og1, og2, og3]

theorem buildStep_stale {kc : Triple → ℕ} {st : BuildState} {t : Triple}
    (hct : st.completed t = true) : buildStep kc st t = st := by
  simp [buildStep, hct]

theorem scanInv_init (n : ℕ) (kc : Triple → ℕ) : ScanInv n kc initState := by
  refine ⟨?_, ?_, ?_, ?_⟩ <;> simp [initState]

theorem scanInv_step {n : ℕ} {kc : Triple → ℕ} {st : BuildState} {t : Triple}
    (hwf : wfKconserv n kc) (ht : inRange n t) (inv : ScanInv n kc st) :
    ScanInv n kc (buildStep kc st t) := by
  by_cases hct : st.completed t = true
  · rw [buildStep_stale hct]; exact inv
  · have hcf : st.completed t = false := by
      revert hct; cases st.completed t <;> simp
    have hfree : ∀ e ∈ st.symm_map, ∀ u ∈ e.2, u ∉ orbitList kc t := by
      intro e he u hu hmem
      obtain ⟨him, hrng⟩ := inv.map_img e he
      rw [him] at hu
      have htm : t ∈ orbitList kc u := orbitList_symm hwf ht hmem
      have htm2 : t ∈ orbitList kc e.1 := orbitList_trans hwf hrng hu htm
      have hdone : st.completed t = true :=
        (inv.comp_iff t).2 ⟨e, he, by rw [him]; exact htm2⟩
      rw [hcf] at hdone
      exact Bool.false_ne_true hdone
    rw [buildStep_fresh hcf]
    refine ⟨?_, ?_, ?_, ?_⟩
    · intro e he
      rcases List.mem_append.mp he with hold | hnew
      · exact inv.map_img e hold
      · rw [List.mem_singleton.mp hnew]
        exact ⟨rfl, ht⟩
    · intro u
      constructor
      · intro hu
        by_cases hm : u ∈ orbitList kc t
        · exact ⟨(t, orbitList kc t),
            List.mem_append_right _ (List.mem_singleton_self _), hm⟩
        · replace hu : st.completed u = true := by
            simpa [hm] using hu
          obtain ⟨e, he, hue⟩ := (inv.comp_iff u).1 hu
          exact ⟨e, List.mem_append_left _ he, hue⟩
      · rintro ⟨e, he, hue⟩
        show (if u ∈ orbitList kc t then true else st.completed u) = true
        rcases List.mem_append.mp he with hold | hnew
        · by_cases hm : u ∈ orbitList kc t
          · rw [if_pos hm]
          · rw [if_neg hm]
            exact (inv.comp_iff u).2 ⟨e, hold, hue⟩
        · have heq := List.mem_singleton.mp hnew
          subst heq
          rw [if_pos hue]
    · intro u
      rw [List.countP_append]
      by_cases hm : u ∈ orbitList kc t
      · have hzero : (st.symm_map.countP fun e => decide (u ∈ e.2)) = 0 := by
          rw [List.countP_eq_zero]
          intro e he
          simp only [decide_eq_true_eq]
          exact fun hue => hfree e he u hue hm
        rw [hzero]
        simp [List.countP_cons, hm]
      · have hone : (List.countP (fun e => decide (u ∈ e.2))
            [(t, orbitList kc t)]) = 0 := by
          simp [List.countP_cons, hm]
        rw [hone]
        simpa using inv.disj u
    · intro e he h1 h2 h3
      rcases List.mem_append.mp he with hold | hnew
      · obtain ⟨him, hrng⟩ := inv.map_img e hold
        have hself : e.1 ∈ e.2 := by
          rw [him, mem_orbitList_iff]; exact Or.inl rfl
        have hnot : e.1 ∉ orbitList kc t := hfree e hold e.1 hself
        have n0 : e.1 ≠ t := fun hh => hnot (by
          rw [mem_orbitList_iff]; exact Or.inl hh)
        have n1 : e.1 ≠ og1 kc t := fun hh => hnot (by
          rw [mem_orbitList_iff]; exact Or.inr (Or.inl hh))
        have n2 : e.1 ≠ og2 kc t := fun hh => hnot (by
          rw [mem_orbitList_iff]; exact Or.inr (Or.inr (Or.inl hh)))
        have n3 : e.1 ≠ og3 kc t := fun hh => hnot (by
          rw [mem_orbitList_iff]; exact Or.inr (Or.inr (Or.inr hh)))
        show (Function.update (Function.update (Function.update
          (Function.update st.oper t 0) (og1 kc t) 1) (og2 kc t) 2)
          (og3 kc t) 3) e.1 = 0
        rw [Function.update_noteq n3, Function.update_noteq n2,
          Function.update_noteq n1, Function.update_noteq n0]
        exact inv.oper_zero e hold h1 h2 h3
      · have heq := List.mem_singleton.mp hnew
        subst heq
        show (Function.update (Function.update (Function.update
          (Function.update st.oper t 0) (og1 kc t) 1) (og2 kc t) 2)
          (og3 kc t) 3) t = 0
        rw [Function.update_noteq (Ne.symm h3), Function.update_noteq (Ne.symm h2),
          Function.update_noteq (Ne.symm h1), Function.update_same]

theorem scanInv_fold {n : ℕ} {kc : Triple → ℕ} (hwf : wfKconserv n kc)
    (l : List Triple) (hl : ∀ t ∈ l, inRange n t) {st : BuildState}
    (inv : ScanInv n kc st) : ScanInv n kc (l.foldl (buildStep kc) st) := by
  induction l generalizing st with
  | nil => exact inv
  | cons x xs ih =>
    exact ih (fun t htl => hl t (List.mem_cons_of_mem _ htl))
      (scanInv_step hwf (hl x (List.mem_cons_self _ _)) inv)

theorem buildStep_completed_mono {kc : Triple → ℕ} {st : BuildState}
    {t u : Triple} (h : st.completed u = true) :
    (buildStep kc st t).completed u = true := by
  by_cases hct : st.completed t = true
  · rw [buildStep_stale hct]; exact h
  · have hcf : st.completed t = false := by
      revert hct; cases st.completed t <;> simp
    rw [buildStep_fresh hcf]
    show (if u ∈ orbitList kc t then true else st.completed u) = true
    by_cases hm : u ∈ orbitList kc t
    · rw [if_pos hm]
    · rw [if_neg hm]; exact h

theorem buildStep_completes_self {kc : Triple → ℕ} {st : BuildState}
    {t : Triple} : (buildStep kc st t).completed t = true := by
  by_cases hct : st.completed t = true
  · rw [buildStep_stale hct]; exact hct
  · have hcf : st.completed t = false := by
      revert hct; cases st.completed t <;> simp
    rw [buildStep_fresh hcf]
    show (if t ∈ orbitList kc t then true else st.completed t) = true
    rw [if_pos (by rw [mem_orbitList_iff]; exact Or.inl rfl)]

theorem fold_completed_mono {kc : Triple → ℕ} (l : List Triple)
    {st : BuildState} {u : Triple} (h : st.completed u = true) :
    (l.foldl (buildStep kc) st).completed u = true := by
  induction l generalizing st with
  | nil => exact h
  | cons x xs ih => exact ih (buildStep_completed_mono h)

theorem fold_completes {kc : Triple → ℕ} (l : List Triple) {st : BuildState} :
    ∀ t ∈ l, (l.foldl (buildStep kc) st).completed t = true := by
  induction l generalizing st with
  | nil => intro t h; cases h
  | cons x xs ih =>
    intro t htl
    rcases List.mem_cons.mp htl with rfl | hxs
    · exact fold_completed_mono xs buildStep_completes_self
    · exact ih t hxs

/-- C3 amended: after construction from a k-point set whose computed
conservation tensor is well formed (orbit closed), the `symm_map` lists cover
every in-range ordered triple exactly once; every orbit list consists of
exactly the four symmetry images of its canonical triple (so has exactly 4
entries), and its members are distinct whenever those four images are
pairwise distinct.  (With coincident images — e.g. the Gamma point alone —
a list repeats members, which refutes the unconditional claim.) -/
theorem kptshelper_symm_map_partition (a : Mat3) (kpts : List Vec3)
    (hwf : wfKconserv kpts.length (kconservFun a kpts)) :
    (∀ t, inRange kpts.length t →
      ((mkKptsHelper a kpts).symm_map.countP fun e => decide (t ∈ e.2)) = 1) ∧
    (∀ e ∈ (mkKptsHelper a kpts).symm_map,
      e.2 = orbitList (kconservFun a kpts) e.1 ∧ e.2.length = 4) ∧
    (∀ e ∈ (mkKptsHelper a kpts).symm_map,
      (orbitList (kconservFun a kpts) e.1).Nodup → e.2.Nodup) := by
  have hinv : ScanInv kpts.length (kconservFun a kpts)
      ((loop_kkk kpts.length).foldl (buildStep (kconservFun a kpts)) initState) :=
    scanInv_fold hwf _ (fun t htl => (mem_loop_kkk _ _).1 htl) (scanInv_init _ _)
  simp only [mkKptsHelper]
  refine ⟨?_, ?_, ?_⟩
  · intro t htr
    have hcomp := @fold_completes (kconservFun a kpts) (loop_kkk kpts.length)
      initState t ((mem_loop_kkk _ _).2 htr)
    obtain ⟨e, he, hue⟩ := (hinv.comp_iff t).1 hcomp
    have hpos : 0 < (((loop_kkk kpts.length).foldl
        (buildStep (kconservFun a kpts)) initState).symm_map.countP
        fun e => decide (t ∈ e.2)) :=
      List.countP_pos_iff.2 ⟨e, he, by simpa using hue⟩
    have hle := hinv.disj t
    omega
  · intro e he
    obtain ⟨him, _⟩ := hinv.map_img e he
    exact ⟨him, by rw [him]; rfl⟩
  · intro e he hnd
    obtain ⟨him, _⟩ := hinv.map_img e he
    rw [him]
    exact hnd

theorem kptshelper_symm_map_partition_witness :
    wfKconserv parityKpts.length (kconservFun idMat parityKpts) ∧
      ((mkKptsHelper idMat parityKpts).symm_map.countP
        fun e => decide (((0, 1, 1) : Triple) ∈ e.2)) = 1 :=
  ⟨by with_unfolding_all decide,
    (kptshelper_symm_map_partition idMat parityKpts
      (by with_unfolding_all decide)).1 (0, 1, 1) (by with_unfolding_all decide)⟩

/-- C3 counterexample: the single Gamma point yields a well-formed (orbit
closed) conservation tensor, yet the only orbit list is four copies of
`(0,0,0)` — it does not have 4 distinct members. -/
theorem kptshelper_symm_map_counterexample :
    wfKconserv gammaKpts.length (kconservFun idMat gammaKpts) ∧
      ∃ e ∈ (mkKptsHelper idMat gammaKpts).symm_map, ¬ e.2.Nodup := by
  refine ⟨by with_unfolding_all decide,
    ⟨((0,0,0), [(0,0,0), (0,0,0), (0,0,0), (0,0,0)]), ?_, ?_⟩⟩
  · with_unfolding_all decide
  · with_unfolding_all decide

/-- C4 amended: when the computed conservation tensor is well formed (orbit
closed), the operation recorded at a key of `symm_map` is 0 provided the three
non-identity images of the key differ from the key itself.  (When an image
coincides with the key — e.g. the Gamma point alone, or any triple with two
equal components — the later assignments overwrite the 0.) -/
theorem kptshelper_operation_zero_on_keys (a : Mat3) (kpts : List Vec3)
    (hwf : wfKconserv kpts.length (kconservFun a kpts)) :
    ∀ e ∈ (mkKptsHelper a kpts).symm_map,
      og1 (kconservFun a kpts) e.1 ≠ e.1 →
      og2 (kconservFun a kpts) e.1 ≠ e.1 →
      og3 (kconservFun a kpts) e.1 ≠ e.1 →
      (mkKptsHelper a kpts)._operation e.1 = 0 := by
  simp only [mkKptsHelper]
  exact fun e he h1 h2 h3 =>
    (scanInv_fold hwf _ (fun t htl => (mem_loop_kkk _ _).1 htl)
      (scanInv_init _ _)).oper_zero e he h1 h2 h3

theorem kptshelper_operation_zero_on_keys_witness :
    wfKconserv thirdKpts.length (kconservFun idMat thirdKpts) ∧
      (mkKptsHelper idMat thirdKpts)._operation (0, 1, 2) = 0 :=
  ⟨by with_unfolding_all decide,
    kptshelper_operation_zero_on_keys idMat thirdKpts (by with_unfolding_all decide)
      ((0, 1, 2), [(0, 1, 2), (2, 1, 0), (1, 0, 1), (1, 2, 1)])
      (by with_unfolding_all decide) (by with_unfolding_all decide)
      (by with_unfolding_all decide) (by with_unfolding_all decide)⟩

/-- C4 counterexample: for the single Gamma point, `(0,0,0)` is the stored
canonical triple (the only key of `symm_map`), yet `_operation[0,0,0] = 3`:
the four orbit images coincide and the assignments 1, 2, 3 overwrite the 0. -/
theorem kptshelper_operation_counterexample :
    ((mkKptsHelper idMat gammaKpts).symm_map.map Prod.fst) = [(0, 0, 0)] ∧
      (mkKptsHelper idMat gammaKpts)._operation (0, 0, 0) = 3 := by
  constructor
  · with_unfolding_all decide
  · with_unfolding_all decide

theorem getD_concat_self {α : Type} (l : List α) (x d : α) :
    (l ++ [x]).getD l.length d = x := by
  induction l with
  | nil => rfl
  | cons y ys ih => simpa [List.getD_cons_succ] using ih

theorem getD_append_of_lt {α : Type} (l l' : List α) (i : ℕ) (d : α)
    (h : i < l.length) : (l ++ l').getD i d = l.getD i d := by
  induction l generalizing i with
  | nil => simp at h
  | cons y ys ih =>
    cases i with
    | zero => rfl
    | succ k =>
      simp only [List.cons_append, List.getD_cons_succ]
      exact ih k (by simpa using h)

theorem closeTo_self (x : Vec3) : closeTo x x = true := by
  apply decide_eq_true
  have hz : (∑ w, |x w - x w|) = 0 := by simp
  rw [hz, KPT_DIFF_TOL]
  norm_num

theorem uniqueStep_inv {kpts : List Vec3} {st : UniqueState} {i : ℕ}
    (h : UniqueInv kpts st) : UniqueInv kpts (uniqueStep kpts st i) := by
  unfold uniqueStep
  by_cases hs : st.seen i = true
  · rw [if_pos hs]; exact h
  · rw [if_neg hs]
    intro j hj
    by_cases hcl : closeTo (kv kpts i) (kv kpts j) = true
    · refine ⟨?_, ?_⟩
      · show (if closeTo (kv kpts i) (kv kpts j) then st.uniq_kpts.length
          else st.uniq_inverse j) < (st.uniq_kpts ++ [kv kpts i]).length
        rw [if_pos hcl]
        simp
      · show (∑ w, |kv kpts j w - ((st.uniq_kpts ++ [kv kpts i]).getD
          (if closeTo (kv kpts i) (kv kpts j) then st.uniq_kpts.length
            else st.uniq_inverse j) zero3) w|) < KPT_DIFF_TOL
        rw [if_pos hcl, getD_concat_self]
        have hd := of_decide_eq_true hcl
        calc (∑ w, |kv kpts j w - kv kpts i w|)
            = ∑ w, |kv kpts i w - kv kpts j w| :=
              Finset.sum_congr rfl fun w _ => abs_sub_comm _ _
          _ < KPT_DIFF_TOL := hd
    · have hsj : st.seen j = true := by
        revert hj
        show (st.seen j || closeTo (kv kpts i) (kv kpts j)) = true → _
        simp [hcl]
      obtain ⟨h1, h2⟩ := h j hsj
      refine ⟨?_, ?_⟩
      · show (if closeTo (kv kpts i) (kv kpts j) then st.uniq_kpts.length
          else st.uniq_inverse j) < (st.uniq_kpts ++ [kv kpts i]).length
        rw [if_neg hcl]
        simp only [List.length_append, List.length_cons, List.length_nil]
        omega
      · show (∑ w, |kv kpts j w - ((st.uniq_kpts ++ [kv kpts i]).getD
          (if closeTo (kv kpts i) (kv kpts j) then st.uniq_kpts.length
            else st.uniq_inverse j) zero3) w|) < KPT_DIFF_TOL
        rw [if_neg hcl, getD_append_of_lt _ _ _ _ h1]
        exact h2

theorem uniqueStep_seen_mono {kpts : List Vec3} {st : UniqueState} {i j : ℕ}
    (h : st.seen j = true) : (uniqueStep kpts st i).seen j = true := by
  unfold uniqueStep
  by_cases hs : st.seen i = true
  · rw [if_pos hs]; exact h
  · rw [if_neg hs]
    show (st.seen j || closeTo (kv kpts i) (kv kpts j)) = true
    rw [h, Bool.true_or]

theorem uniqueStep_seen_self {kpts : List Vec3} {st : UniqueState} {i : ℕ} :
    (uniqueStep kpts st i).seen i = true := by
  unfold uniqueStep
  by_cases hs : st.seen i = true
  · rw [if_pos hs]; exact hs
  · rw [if_neg hs]
    show (st.seen i || closeTo (kv kpts i) (kv kpts i)) = true
    rw [closeTo_self, Bool.or_true]

theorem unique_fold_inv (kpts : List Vec3) (l : List ℕ) {st : UniqueState}
    (h : UniqueInv kpts st) : UniqueInv kpts (l.foldl (uniqueStep kpts) st) := by
  induction l generalizing st with
  | nil => exact h
  | cons x xs ih => exact ih (uniqueStep_inv h)

theorem unique_fold_seen_mono (kpts : List Vec3) (l : List ℕ) {st : UniqueState}
    {j : ℕ} (h : st.seen j = true) :
    (l.foldl (uniqueStep kpts) st).seen j = true := by
  induction l generalizing st with
  | nil => exact h
  | cons x xs ih => exact ih (uniqueStep_seen_mono h)

theorem unique_fold_seen (kpts : List Vec3) (l : List ℕ) {st : UniqueState} :
    ∀ i ∈ l, (l.foldl (uniqueStep kpts) st).seen i = true := by
  induction l generalizing st with
  | nil => intro i h; cases h
  | cons x xs ih =>
    intro i hil
    rcases List.mem_cons.mp hil with rfl | hxs
    · exact unique_fold_seen_mono kpts xs uniqueStep_seen_self
    · exact ih i hxs

/-- C7: for every input sequence of k-points and every position `i`, the sum
of absolute componentwise differences between `input[i]` and
`unique_kpts[inverse_map[i]]` is strictly below the tolerance. -/
theorem unique_inverse_within_tolerance (kpts : List Vec3) (i : ℕ)
    (hi : i < kpts.length) :
    (∑ w, |kv kpts i w
      - ((unique kpts).1.getD ((unique kpts).2.2 i) zero3) w|) < KPT_DIFF_TOL := by
  simp only [unique]
  have hinv : UniqueInv kpts ((List.range kpts.length).foldl (uniqueStep kpts)
      ⟨[], [], fun _ => 0, fun _ => false⟩) :=
    unique_fold_inv kpts _ fun j hj => by simp at hj
  have hseen := @unique_fold_seen kpts (List.range kpts.length)
    ⟨[], [], fun _ => 0, fun _ => false⟩ i (List.mem_range.2 hi)
  exact (hinv i hseen).2

theorem unique_inverse_within_tolerance_witness :
    0 < parityKpts.length ∧
      (∑ w, |kv parityKpts 0 w
        - ((unique parityKpts).1.getD ((unique parityKpts).2.2 0) zero3) w|)
        < KPT_DIFF_TOL :=
  ⟨by decide, unique_inverse_within_tolerance parityKpts 0 (by decide)⟩

theorem mem_leavesListL {α : Type} {l : List (Nested α)} {c : Nested α}
    {a : NDArr α} (hc : c ∈ l) (ha : a ∈ leavesList c) : a ∈ leavesListL l := by
  induction l with
  | nil => cases hc
  | cons x xs ih =>
    rcases List.mem_cons.mp hc with rfl | hxs
    · rw [leavesListL]
      exact List.mem_append_left _ ha
    · rw [leavesListL]
      exact List.mem_append_right _ (ih hxs)

theorem sharedDtype_child {α : Type} {l : List (Nested α)} {dt : ℕ}
    (h : sharedDtype (.node l) dt) {c : Nested α} (hc : c ∈ l) :
    sharedDtype c dt := by
  intro a ha
  exact h a (by rw [leavesList]; exact mem_leavesListL hc ha)

theorem leavesWF_child {α : Type} {l : List (Nested α)}
    (h : leavesWF (Nested.node l)) {c : Nested α} (hc : c ∈ l) : leavesWF c := by
  intro a ha
  exact h a (by rw [leavesList]; exact mem_leavesListL hc ha)

theorem except_bind_ok {ε α β : Type} (v : α) (f : α → Except ε β) :
    (Except.ok v >>= f) = f v := rfl

theorem except_bind_error {ε α β : Type} (e : ε) (f : α → Except ε β) :
    ((Except.error e : Except ε α) >>= f) = Except.error e := rfl

mutual

theorem describe_eq {α : Type} (dt : ℕ) (d : Nested α) (h : sharedDtype d dt) :
    ∃ odt, describe_nested d = .ok (structOf d, (flatData d).length, odt) ∧
      (odt = none ∨ odt = some dt) := by
  cases d with
  | arr a =>
    refine ⟨some a.dtype, by rw [describe_nested, structOf, flatData], Or.inr ?_⟩
    rw [h a (by rw [leavesList]; exact List.mem_singleton_self _)]
  | node l =>
    obtain ⟨odt, heq, hdt⟩ := describeChildren_eq dt l
      (fun c hc => sharedDtype_child h hc) ([], 0, none) (Or.inl rfl)
    refine ⟨odt, ?_, hdt⟩
    rw [describe_nested, heq, except_bind_ok, structOf, flatData]
    simp

theorem describeChildren_eq {α : Type} (dt : ℕ) (l : List (Nested α))
    (h : ∀ c ∈ l, sharedDtype c dt) (acc : List Struct × ℕ × Option ℕ)
    (hacc : acc.2.2 = none ∨ acc.2.2 = some dt) :
    ∃ odt, describeChildren acc l
      = .ok (acc.1 ++ structOfL l, acc.2.1 + (flatDataL l).length, odt) ∧
      (odt = none ∨ odt = some dt) := by
  cases l with
  | nil =>
    refine ⟨acc.2.2, ?_, hacc⟩
    rw [describeChildren, structOfL, flatDataL]
    simp
  | cons c cs =>
    obtain ⟨a1, a2, a3⟩ := acc
    obtain ⟨odtc, hc, hcd⟩ := describe_eq dt c (h c (List.mem_cons_self _ _))
    obtain ⟨odt, hcs, hod⟩ := describeChildren_eq dt cs
      (fun x hx => h x (List.mem_cons_of_mem _ hx))
      (a1 ++ [structOf c], a2 + (flatData c).length, odtc) hcd
    have hcs2 : describeChildren
        (a1 ++ [structOf c], a2 + (flatData c).length, odtc) cs
        = Except.ok ((a1 ++ [structOf c]) ++ structOfL cs,
            (a2 + (flatData c).length) + (flatDataL cs).length, odt) := hcs
    refine ⟨odt, ?_, hod⟩
    have hgoal : (a1 ++ [structOf c]) ++ structOfL cs
        = a1 ++ structOfL (c :: cs) := by
      rw [structOfL, List.append_assoc, List.singleton_append]
    have harith : (a2 + (flatData c).length) + (flatDataL cs).length
        = a2 + (flatDataL (c :: cs)).length := by
      rw [flatDataL, List.length_append]
      omega
    rw [describeChildren, hc, except_bind_ok]
    rcases hacc with hnone | hsome
    · have h3 : a3 = none := hnone
      subst h3
      cases odtc with
      | none =>
        show describeChildren (a1 ++ [structOf c], a2 + (flatData c).length, none) cs
          = Except.ok (a1 ++ structOfL (c :: cs),
              a2 + (flatDataL (c :: cs)).length, odt)
        rw [hcs2, hgoal, harith]
      | some d2 =>
        show describeChildren
            (a1 ++ [structOf c], a2 + (flatData c).length, some d2) cs
          = Except.ok (a1 ++ structOfL (c :: cs),
              a2 + (flatDataL (c :: cs)).length, odt)
        rw [hcs2, hgoal, harith]
    · have h3 : a3 = some dt := hsome
      subst h3
      cases odtc with
      | none =>
        show describeChildren (a1 ++ [structOf c], a2 + (flatData c).length, none) cs
          = Except.ok (a1 ++ structOfL (c :: cs),
              a2 + (flatDataL (c :: cs)).length, odt)
        rw [hcs2, hgoal, harith]
      | some d2 =>
        have hd2 : d2 = dt := by
          rcases hcd with hx | hx
          · cases hx
          · injection hx
        show (if (d2 ≠ dt) then Except.error PyError.typeMismatch
          else describeChildren
            (a1 ++ [structOf c], a2 + (flatData c).length, some d2) cs)
          = Except.ok (a1 ++ structOfL (c :: cs),
              a2 + (flatDataL (c :: cs)).length, odt)
        rw [if_neg (fun hh => hh hd2), hcs2, hgoal, harith]

end

theorem listWrite_nil {α : Type} (dest : List α) (off : ℕ) :
    listWrite dest off ([] : List α) = dest := by
  simp [listWrite, List.take_append_drop]

theorem listWrite_length {α : Type} (dest : List α) (off : ℕ) (src : List α)
    (h : off + src.length ≤ dest.length) :
    (listWrite dest off src).length = dest.length := by
  simp only [listWrite, List.length_append, List.length_take, List.length_drop]
  omega

theorem listWrite_append_of_le {α : Type} (dest x y : List α) (off : ℕ)
    (h : off ≤ dest.length) :
    listWrite (listWrite dest off x) (off + x.length) y
      = listWrite dest off (x ++ y) := by
  unfold listWrite
  have hB : ((dest.take off) ++ x).length = off + x.length := by
    rw [List.length_append, List.length_take]
    omega
  have htake : ((dest.take off ++ x) ++ dest.drop (off + x.length)).take
      (off + x.length) = dest.take off ++ x := by
    rw [← hB, List.take_left]
  have hdrop : ((dest.take off ++ x) ++ dest.drop (off + x.length)).drop
      (off + x.length + y.length) = dest.drop (off + (x ++ y).length) := by
    have e1 : off + x.length + y.length
        = (dest.take off ++ x).length + y.length := by
      rw [hB]
    rw [e1, ← List.drop_drop, List.drop_left, List.drop_drop,
      List.length_append]
    congr 1
    omega
  show ((dest.take off ++ x) ++ dest.drop (off + x.length)).take (off + x.length)
      ++ y ++ ((dest.take off ++ x) ++ dest.drop (off + x.length)).drop
        (off + x.length + y.length)
    = dest.take off ++ (x ++ y) ++ dest.drop (off + (x ++ y).length)
  rw [htake, hdrop, List.append_assoc (dest.take off) x y]

mutual

theorem fillNested_spec {α : Type} (d : Nested α) (dest : List α) (off : ℕ)
    (h : off + (flatData d).length ≤ dest.length) :
    fillNested d dest off
      = (listWrite dest off (flatData d), off + (flatData d).length) := by
  cases d with
  | arr a => rw [fillNested, flatData]
  | node l =>
    rw [flatData] at h
    rw [fillNested, flatData]
    exact fillList_spec l dest off h

theorem fillList_spec {α : Type} (l : List (Nested α)) (dest : List α) (off : ℕ)
    (h : off + (flatDataL l).length ≤ dest.length) :
    fillList l dest off
      = (listWrite dest off (flatDataL l), off + (flatDataL l).length) := by
  cases l with
  | nil =>
    rw [fillList, flatDataL, listWrite_nil]
    simp
  | cons c cs =>
    have hlen : (flatDataL (c :: cs)).length
        = (flatData c).length + (flatDataL cs).length := by
      rw [flatDataL, List.length_append]
    have hc : off + (flatData c).length ≤ dest.length := by omega
    have hoff : off ≤ dest.length := by omega
    rw [fillList, fillNested_spec c dest off hc]
    show fillList cs (listWrite dest off (flatData c)) (off + (flatData c).length)
      = (listWrite dest off (flatDataL (c :: cs)),
          off + (flatDataL (c :: cs)).length)
    rw [fillList_spec cs (listWrite dest off (flatData c))
      (off + (flatData c).length)
      (by rw [listWrite_length dest off (flatData c) hc]; omega)]
    rw [listWrite_append_of_le dest (flatData c) (flatDataL cs) off hoff]
    rw [flatDataL, List.length_append, Nat.add_assoc]

end

theorem v2n_array_eval {α : Type} (v : NDArr α) (copy ensure : Bool)
    (shape : List ℕ) (hrank : v.shape.length = 1)
    (h1 : ¬ (ensure = true ∧ v.data.length ≠ shape.prod))
    (h2 : ¬ (v.data.length < shape.prod)) :
    vector_to_nested v (.array shape) copy ensure
      = .ok (.arr ⟨shape, v.dtype, v.data.take shape.prod⟩, shape.prod) := by
  rw [vector_to_nested]
  rw [if_neg (by rw [hrank]; exact fun hh => hh rfl)]
  show (if ensure = true ∧ v.data.length ≠ shape.prod
      then Except.error PyError.sizeMismatch
      else if v.data.length < shape.prod then Except.error PyError.sizeMismatch
      else Except.ok (Nested.arr ⟨shape, v.dtype, v.data.take shape.prod⟩,
        shape.prod))
    = Except.ok (Nested.arr ⟨shape, v.dtype, v.data.take shape.prod⟩, shape.prod)
  rw [if_neg h1, if_neg h2]

theorem v2n_node_eval {α : Type} (v : NDArr α) (copy ensure : Bool)
    (children : List Struct) (res : List (Nested α)) (off : ℕ)
    (hrank : v.shape.length = 1)
    (h : restoreChildren v 0 copy children = .ok (res, off))
    (hsz : ¬ (ensure = true ∧ v.data.length ≠ off)) :
    vector_to_nested v (.node children) copy ensure
      = .ok (.node res, off) := by
  rw [vector_to_nested]
  rw [if_neg (by rw [hrank]; exact fun hh => hh rfl)]
  show (restoreChildren v 0 copy children >>= fun p =>
      if ensure = true ∧ v.data.length ≠ p.2 then Except.error PyError.sizeMismatch
      else Except.ok (Nested.node p.1, p.2))
    = Except.ok (Nested.node res, off)
  rw [h, except_bind_ok]
  show (if ensure = true ∧ v.data.length ≠ off
      then Except.error PyError.sizeMismatch
      else Except.ok (Nested.node res, off))
    = Except.ok (Nested.node res, off)
  rw [if_neg hsz]

theorem restoreChildren_cons_eval {α : Type} (v : NDArr α) (off : ℕ)
    (copy : Bool) (s : Struct) (ss : List Struct) (d2 : Nested α) (k : ℕ)
    (h1 : vector_to_nested (vecDrop v off) s copy false = .ok (d2, k))
    (ds : List (Nested α)) (final : ℕ)
    (h2 : restoreChildren v (off + k) copy ss = .ok (ds, final)) :
    restoreChildren v off copy (s :: ss) = .ok (d2 :: ds, final) := by
  rw [restoreChildren, h1, except_bind_ok]
  show (restoreChildren v (off + k) copy ss >>= fun p =>
      Except.ok (d2 :: p.1, p.2))
    = Except.ok (d2 :: ds, final)
  rw [h2, except_bind_ok]

mutual

theorem v2n_restores {α : Type} [DecidableEq α] (d : Nested α) (vd : ℕ)
    (sh : List ℕ) (rest : List α) (copy : Bool) (hsh : sh.length = 1)
    (hwf : leavesWF d) :
    ∃ d2, vector_to_nested ⟨sh, vd, flatData d ++ rest⟩ (structOf d) copy false
      = .ok (d2, (flatData d).length) ∧ sameValues d2 d = true := by
  cases d with
  | arr a =>
    have hexp : a.shape.prod = a.data.length :=
      hwf a (by rw [leavesList]; exact List.mem_singleton_self _)
    refine ⟨Nested.arr ⟨a.shape, vd, a.data⟩, ?_, ?_⟩
    · have heval := v2n_array_eval (⟨sh, vd, a.data ++ rest⟩ : NDArr α)
        copy false a.shape hsh (fun hh => Bool.false_ne_true hh.1)
        (by show ¬ ((a.data ++ rest).length < a.shape.prod)
            rw [List.length_append, hexp]
            omega)
      have h3 : (a.data ++ rest).take a.shape.prod = a.data := by
        rw [hexp, List.take_left]
      rw [flatData, structOf, heval, h3, hexp]
    · rw [sameValues]
      simp
  | node l =>
    obtain ⟨ds, heq, hsv⟩ := restoreChildren_restores l
      ⟨sh, vd, flatData (.node l) ++ rest⟩ 0 rest copy
      (by show (flatData (Nested.node l) ++ rest).drop 0 = flatDataL l ++ rest
          rw [flatData, List.drop_zero])
      (fun c hc => leavesWF_child hwf hc)
    refine ⟨Nested.node ds, ?_, ?_⟩
    · have heval := v2n_node_eval (⟨sh, vd, flatData (.node l) ++ rest⟩ : NDArr α)
        copy false (structOfL l) ds (0 + (flatDataL l).length) hsh heq
        (fun hh => Bool.false_ne_true hh.1)
      rw [structOf, heval]
      rw [show (flatData (Nested.node l)).length = (flatDataL l).length by
        rw [flatData]]
      rw [Nat.zero_add]
    · rw [sameValues]
      exact hsv

theorem restoreChildren_restores {α : Type} [DecidableEq α]
    (l : List (Nested α)) (v : NDArr α) (off : ℕ) (rest : List α) (copy : Bool)
    (hv : v.data.drop off = flatDataL l ++ rest)
    (hwf : ∀ c ∈ l, leavesWF c) :
    ∃ ds, restoreChildren v off copy (structOfL l)
      = .ok (ds, off + (flatDataL l).length) ∧ sameValuesL ds l = true := by
  cases l with
  | nil =>
    refine ⟨[], ?_, by rw [sameValuesL]⟩
    rw [structOfL, restoreChildren, flatDataL]
    simp
  | cons c cs =>
    obtain ⟨d2, heq2, hs2⟩ := v2n_restores c v.dtype [v.data.length - off]
      (flatDataL cs ++ rest) copy rfl (hwf c (List.mem_cons_self _ _))
    have heq2v : vector_to_nested (vecDrop v off) (structOf c) copy false
        = .ok (d2, (flatData c).length) := by
      rw [vecDrop]
      rw [show (⟨[v.data.length - off], v.dtype, v.data.drop off⟩ : NDArr α)
        = ⟨[v.data.length - off], v.dtype,
            flatData c ++ (flatDataL cs ++ rest)⟩ by
        rw [hv, flatDataL, List.append_assoc]]
      exact heq2
    have hv2 : v.data.drop (off + (flatData c).length)
        = flatDataL cs ++ rest := by
      rw [← List.drop_drop, hv, flatDataL, List.append_assoc, List.drop_left]
    obtain ⟨ds, heq3, hs3⟩ := restoreChildren_restores cs v
      (off + (flatData c).length) rest copy hv2
      (fun x hx => hwf x (List.mem_cons_of_mem _ hx))
    refine ⟨d2 :: ds, ?_, ?_⟩
    · rw [structOfL]
      rw [restoreChildren_cons_eval v off copy (structOf c) (structOfL cs) d2
        (flatData c).length heq2v ds
        (off + (flatData c).length + (flatDataL cs).length) heq3]
      rw [flatDataL, List.length_append, Nat.add_assoc]
    · rw [sameValuesL, hs2, hs3]
      rfl

end

theorem v2n_restores_ensure {α : Type} [DecidableEq α] (d : Nested α) (vd : ℕ)
    (sh : List ℕ) (copy : Bool) (hsh : sh.length = 1) (hwf : leavesWF d) :
    ∃ d2, vector_to_nested ⟨sh, vd, flatData d⟩ (structOf d) copy true
      = .ok (d2, (flatData d).length) ∧ sameValues d2 d = true := by
  cases d with
  | arr a =>
    have hexp : a.shape.prod = a.data.length :=
      hwf a (by rw [leavesList]; exact List.mem_singleton_self _)
    refine ⟨Nested.arr ⟨a.shape, vd, a.data⟩, ?_, ?_⟩
    · have heval := v2n_array_eval (⟨sh, vd, a.data⟩ : NDArr α)
        copy true a.shape hsh
        (by rintro ⟨-, hh⟩; exact hh hexp.symm)
        (by show ¬ (a.data.length < a.shape.prod); omega)
      have h3 : a.data.take a.shape.prod = a.data := by
        rw [hexp, List.take_length]
      rw [flatData, structOf, heval, h3, hexp]
    · rw [sameValues]
      simp
  | node l =>
    obtain ⟨ds, heq, hsv⟩ := restoreChildren_restores l
      ⟨sh, vd, flatData (.node l)⟩ 0 [] copy
      (by show (flatData (Nested.node l)).drop 0 = flatDataL l ++ []
          rw [flatData, List.drop_zero, List.append_nil])
      (fun c hc => leavesWF_child hwf hc)
    refine ⟨Nested.node ds, ?_, ?_⟩
    · have heval := v2n_node_eval (⟨sh, vd, flatData (.node l)⟩ : NDArr α)
        copy true (structOfL l) ds (0 + (flatDataL l).length) hsh heq
        (by rintro ⟨-, hh⟩
            apply hh
            show (flatData (Nested.node l)).length = 0 + (flatDataL l).length
            rw [flatData]
            omega)
      rw [structOf, heval]
      rw [show (flatData (Nested.node l)).length = (flatDataL l).length by
        rw [flatData]]
      rw [Nat.zero_add]
    · rw [sameValues]
      exact hsv

/-- C2: for every nested structure of lists/tuples whose leaves are
well-formed arrays sharing one element type, restoring the flattened vector
with its descriptor reproduces the original structure exactly:
`vector_to_nested` applied to the output of `nested_to_vector` succeeds and
returns a structure with the same nesting shape and the same leaf shapes and
leaf values elementwise. -/
theorem nested_to_vector_roundtrip {α : Type} [Inhabited α] [DecidableEq α]
    (data : Nested α) (dt : ℕ) (hwf : leavesWF data) (hdt : sharedDtype data dt) :
    ∃ vec struct, nested_to_vector data = Except.ok (vec, struct) ∧
      ∃ res, vector_to_nested vec struct true true
          = Except.ok (res, vec.data.length) ∧
        sameValues res data = true := by
  obtain ⟨odt, hdesc, _⟩ := describe_eq dt data hdt
  have hfill := fillNested_spec data
    (List.replicate (flatData data).length (default : α)) 0 (by simp)
  have hfilled : listWrite
      (List.replicate (flatData data).length (default : α)) 0 (flatData data)
      = flatData data := by
    rw [listWrite, List.take_zero, List.nil_append, Nat.zero_add]
    simp
  refine ⟨⟨[(flatData data).length], odt.getD dtypeFloat64, flatData data⟩,
    structOf data, ?_, ?_⟩
  · rw [nested_to_vector, hdesc, except_bind_ok]
    show (match fillNested data
        (List.replicate (flatData data).length (default : α)) 0 with
      | (filled, _off) => Except.ok
          ((⟨[(flatData data).length], odt.getD dtypeFloat64, filled⟩ : NDArr α),
            structOf data))
      = Except.ok
          ((⟨[(flatData data).length], odt.getD dtypeFloat64,
            flatData data⟩ : NDArr α), structOf data)
    rw [hfill, hfilled]
  · exact v2n_restores_ensure data (odt.getD dtypeFloat64)
      [(flatData data).length] true rfl hwf

theorem nested_to_vector_roundtrip_witness :
    leavesWF d2w ∧ sharedDtype d2w 5 ∧
      (∃ vec struct, nested_to_vector d2w = Except.ok (vec, struct) ∧
        ∃ res, vector_to_nested vec struct true true
            = Except.ok (res, vec.data.length) ∧
          sameValues res d2w = true) := by
  have h1 : leavesWF d2w := by
    intro a ha
    simp [d2w, leavesList, leavesListL] at ha
    rcases ha with rfl | rfl | rfl <;> rfl
  have h2 : sharedDtype d2w 5 := by
    intro a ha
    simp [d2w, leavesList, leavesListL] at ha
    rcases ha with rfl | rfl | rfl <;> rfl
  exact ⟨h1, h2, nested_to_vector_roundtrip d2w 5 h1 h2⟩

mutual

theorem describe_error_typeMismatch {α : Type} (d : Nested α) (e : PyError)
    (h : describe_nested d = .error e) : e = .typeMismatch := by
  cases d with
  | arr a => rw [describe_nested] at h; cases h
  | node l =>
    rw [describe_nested] at h
    cases hdc : describeChildren (α := α) ([], 0, none) l with
    | error e2 =>
      rw [hdc, except_bind_error] at h
      injection h with h2
      rw [← h2]
      exact describeChildren_error_typeMismatch l ([], 0, none) e2 hdc
    | ok v =>
      obtain ⟨s, t, dtv⟩ := v
      rw [hdc, except_bind_ok] at h
      simp at h

theorem describeChildren_error_typeMismatch {α : Type} (l : List (Nested α))
    (acc : List Struct × ℕ × Option ℕ) (e : PyError)
    (h : describeChildren acc l = .error e) : e = .typeMismatch := by
  cases l with
  | nil => rw [describeChildren] at h; cases h
  | cons c cs =>
    rw [describeChildren] at h
    cases hdc : describe_nested c with
    | error e2 =>
      rw [hdc, except_bind_error] at h
      injection h with h2
      rw [← h2]
      exact describe_error_typeMismatch c e2 hdc
    | ok v =>
      obtain ⟨cs1, cs2, cdt⟩ := v
      rw [hdc, except_bind_ok] at h
      obtain ⟨a1, a2, a3⟩ := acc
      cases a3 with
      | none =>
        exact describeChildren_error_typeMismatch cs
          (a1 ++ [cs1], a2 + cs2, cdt) e h
      | some dv =>
        cases cdt with
        | none =>
          exact describeChildren_error_typeMismatch cs
            (a1 ++ [cs1], a2 + cs2, none) e h
        | some dv2 =>
          by_cases hne : dv2 ≠ dv
          · have h2 : (if dv2 ≠ dv
                then (Except.error PyError.typeMismatch :
                  Except PyError (List Struct × ℕ × Option ℕ))
                else describeChildren (a1 ++ [cs1], a2 + cs2, some dv2) cs)
                = .error e := h
            rw [if_pos hne] at h2
            injection h2 with h3
            exact h3.symm
          · have h2 : (if dv2 ≠ dv
                then (Except.error PyError.typeMismatch :
                  Except PyError (List Struct × ℕ × Option ℕ))
                else describeChildren (a1 ++ [cs1], a2 + cs2, some dv2) cs)
                = .error e := h
            rw [if_neg hne] at h2
            exact describeChildren_error_typeMismatch cs
              (a1 ++ [cs1], a2 + cs2, some dv2) e h2

end

mutual

theorem describe_adj_mismatch {α : Type} (d : Nested α)
    (h : adjLeafMismatch d = true) :
    describe_nested d = .error .typeMismatch := by
  cases d with
  | arr a => rw [adjLeafMismatch] at h; cases h
  | node l =>
    rw [adjLeafMismatch] at h
    rw [describe_nested, describeChildren_adj_mismatch l h ([], 0, none),
      except_bind_error]

theorem describeChildren_adj_mismatch {α : Type} (l : List (Nested α))
    (h : adjLeafMismatchL l = true) (acc : List Struct × ℕ × Option ℕ) :
    describeChildren acc l = .error .typeMismatch := by
  cases l with
  | nil => rw [adjLeafMismatchL] at h; cases h
  | cons c l2 =>
    cases l2 with
    | nil =>
      rw [adjLeafMismatchL] at h
      rw [describeChildren, describe_adj_mismatch c h, except_bind_error]
    | cons d rest =>
      rw [adjLeafMismatchL] at h
      rcases (Bool.or_eq_true _ _).mp h with h12 | hZ
      · rcases (Bool.or_eq_true _ _).mp h12 with hX | hY
        · cases c with
          | node lc => simp [leafPairMismatch] at hX
          | arr A =>
            cases d with
            | node ld => simp [leafPairMismatch] at hX
            | arr B =>
              rw [leafPairMismatch] at hX
              have hAB : A.dtype ≠ B.dtype := of_decide_eq_true hX
              obtain ⟨a1, a2, a3⟩ := acc
              cases a3 with
              | none =>
                rw [describeChildren, describe_nested, except_bind_ok]
                show describeChildren
                    (a1 ++ [Struct.array A.shape], a2 + A.data.length,
                      some A.dtype) (Nested.arr B :: rest)
                  = Except.error PyError.typeMismatch
                rw [describeChildren, describe_nested, except_bind_ok]
                show (if B.dtype ≠ A.dtype
                    then (Except.error PyError.typeMismatch :
                      Except PyError (List Struct × ℕ × Option ℕ))
                    else describeChildren
                      (a1 ++ [Struct.array A.shape] ++ [Struct.array B.shape],
                        a2 + A.data.length + B.data.length, some B.dtype) rest)
                  = Except.error PyError.typeMismatch
                rw [if_pos (Ne.symm hAB)]
              | some x =>
                rw [describeChildren, describe_nested, except_bind_ok]
                by_cases hx : A.dtype ≠ x
                · show (if A.dtype ≠ x
                      then (Except.error PyError.typeMismatch :
                        Except PyError (List Struct × ℕ × Option ℕ))
                      else describeChildren
                        (a1 ++ [Struct.array A.shape], a2 + A.data.length,
                          some A.dtype) (Nested.arr B :: rest))
                    = Except.error PyError.typeMismatch
                  rw [if_pos hx]
                · show (if A.dtype ≠ x
                      then (Except.error PyError.typeMismatch :
                        Except PyError (List Struct × ℕ × Option ℕ))
                      else describeChildren
                        (a1 ++ [Struct.array A.shape], a2 + A.data.length,
                          some A.dtype) (Nested.arr B :: rest))
                    = Except.error PyError.typeMismatch
                  rw [if_neg hx]
                  rw [describeChildren, describe_nested, except_bind_ok]
                  show (if B.dtype ≠ A.dtype
                      then (Except.error PyError.typeMismatch :
                        Except PyError (List Struct × ℕ × Option ℕ))
                      else describeChildren
                        (a1 ++ [Struct.array A.shape] ++ [Struct.array B.shape],
                          a2 + A.data.length + B.data.length, some B.dtype) rest)
                    = Except.error PyError.typeMismatch
                  rw [if_pos (Ne.symm hAB)]
        · rw [describeChildren, describe_adj_mismatch c hY, except_bind_error]
      · cases hdc : describe_nested c with
        | error e2 =>
          have he2 : e2 = .typeMismatch := describe_error_typeMismatch c e2 hdc
          rw [describeChildren, hdc, except_bind_error, he2]
        | ok v =>
          obtain ⟨cs1, cs2, cdt⟩ := v
          rw [describeChildren, hdc, except_bind_ok]
          obtain ⟨a1, a2, a3⟩ := acc
          cases a3 with
          | none =>
            exact describeChildren_adj_mismatch (d :: rest) hZ
              (a1 ++ [cs1], a2 + cs2, cdt)
          | some dv =>
            cases cdt with
            | none =>
              exact describeChildren_adj_mismatch (d :: rest) hZ
                (a1 ++ [cs1], a2 + cs2, none)
            | some dv2 =>
              by_cases hne : dv2 ≠ dv
              · show (if dv2 ≠ dv
                    then (Except.error PyError.typeMismatch :
                      Except PyError (List Struct × ℕ × Option ℕ))
                    else describeChildren
                      (a1 ++ [cs1], a2 + cs2, some dv2) (d :: rest))
                  = Except.error PyError.typeMismatch
                rw [if_pos hne]
              · show (if dv2 ≠ dv
                    then (Except.error PyError.typeMismatch :
                      Except PyError (List Struct × ℕ × Option ℕ))
                    else describeChildren
                      (a1 ++ [cs1], a2 + cs2, some dv2) (d :: rest))
                  = Except.error PyError.typeMismatch
                rw [if_neg hne]
                exact describeChildren_adj_mismatch (d :: rest) hZ
                  (a1 ++ [cs1], a2 + cs2, some dv2)

end

/-- C8 amended: `describe_nested` fails with the type-mismatch error whenever
some node of the structure has two consecutive children that are array leaves
of different element types (and `nested_to_vector`, which calls it, then
fails the same way).  The unconditional claim is false: the dtype accumulator
is reset by a leafless child (line 234 stores the child dtype even when it is
`None`), so two differing leaves separated by a leafless subtree are not
detected. -/
theorem describe_nested_adjacent_dtype_mismatch {α : Type} [Inhabited α]
    (d : Nested α) (h : adjLeafMismatch d = true) :
    describe_nested d = Except.error PyError.typeMismatch ∧
      nested_to_vector d = Except.error PyError.typeMismatch := by
  have h1 := describe_adj_mismatch d h
  refine ⟨h1, ?_⟩
  rw [nested_to_vector, h1, except_bind_error]

theorem describe_nested_adjacent_dtype_mismatch_witness :
    adjLeafMismatch d8w = true ∧
      describe_nested d8w = Except.error PyError.typeMismatch := by
  have hadj : adjLeafMismatch d8w = true := by
    simp [d8w, adjLeafMismatch, adjLeafMismatchL, leafPairMismatch]
  exact ⟨hadj, (describe_nested_adjacent_dtype_mismatch d8w hadj).1⟩

/-- C8 counterexample: `ce8` has two array leaves with different element
types (dtypes 0 and 1), yet `describe_nested` succeeds — the leafless middle
child resets the dtype accumulator to `None` before the second leaf is
checked. -/
theorem describe_nested_mismatch_counterexample :
    describe_nested ce8 = Except.ok
      (Struct.node [Struct.array [0], Struct.node [], Struct.array [0]], 0,
        some 1) ∧
      (⟨[0], 0, []⟩ : NDArr ℚ) ∈ leavesList ce8 ∧
      (⟨[0], 1, []⟩ : NDArr ℚ) ∈ leavesList ce8 := by
  refine ⟨?_, ?_, ?_⟩
  · simp [ce8, describe_nested, describeChildren, except_bind_ok]
  · simp [ce8, leavesList, leavesListL]
  · simp [ce8, leavesList, leavesListL]

theorem finInvFun_of_involutive {m : ℕ} (f : Fin m → Fin m)
    (hf : ∀ k, f (f k) = k) (p : Fin m) : finInvFun f p = f p := by
  unfold finInvFun
  cases hfind : (List.finRange m).find? (fun k => f k == p) with
  | none =>
      exact absurd (List.find?_eq_none.mp hfind (f p) (List.mem_finRange _))
        (by simp [hf])
  | some k =>
      have hk : f k = p := by
        have hp := List.find?_some hfind
        simpa using hp
      have hkfp : k = f p := by rw [← hk, hf]
      exact hkfp

theorem swapAt_eq {m : ℕ} (f : Fin m → Fin m) (i j : Fin m) :
    swapAt f i j = fun k => f (Equiv.swap i j k) := by
  funext k
  simp only [swapAt, Equiv.swap_apply_def]
  by_cases h1 : k = i
  · rw [if_pos h1, if_pos h1]
  · rw [if_neg h1, if_neg h1]
    by_cases h2 : k = j
    · rw [if_pos h2, if_pos h2]
    · rw [if_neg h2, if_neg h2]

theorem normSq_broadcast_add_perm (t : Tensor) (f : Fin t.m → Fin t.m)
    (σ : Equiv.Perm (Fin t.m)) (hfσ : ∀ k, f k = σ k)
    (hf : ∀ p, f (f p) = p) (hsh : ∀ k, t.shape (f k) = t.shape k) :
    normSq (npBroadcastAdd t.m t.shape (npTranspose t f).shape t.entry
      (npTranspose t f).entry) = antisymResidual t σ := by
  simp only [normSq, antisymResidual]
  have hmax : ∀ k, t.shape k = (npBroadcastAdd t.m t.shape
      (npTranspose t f).shape t.entry (npTranspose t f).entry).shape k := by
    intro k
    show t.shape k = max (t.shape k) (t.shape (f k))
    rw [hsh k, max_self]
  refine (Fintype.sum_equiv (Equiv.piCongrRight fun k => finCongr (hmax k))
    _ _ ?_).symm
  intro jdx
  have hEj : ∀ k, (((Equiv.piCongrRight fun k => finCongr (hmax k)) jdx) k :
      ℕ) = (jdx k : ℕ) := by
    intro k
    simp [Equiv.piCongrRight, finCongr]
  have hA : broadcastIdx t.shape
      (fun k => (((Equiv.piCongrRight fun k => finCongr (hmax k)) jdx) k :
        ℕ)) = (fun k => ((jdx k : ℕ))) := by
    funext k
    simp only [broadcastIdx]
    rw [hEj k]
    by_cases h1 : t.shape k = 1
    · rw [if_pos h1]
      have h2 := (jdx k).isLt
      omega
    · rw [if_neg h1]
  have hB : (fun p => broadcastIdx (npTranspose t f).shape
      (fun k => (((Equiv.piCongrRight fun k => finCongr (hmax k)) jdx) k :
        ℕ)) (finInvFun f p)) = (fun k => ((jdx (σ k) : ℕ))) := by
    funext p
    rw [finInvFun_of_involutive f hf, hfσ p]
    simp only [broadcastIdx]
    rw [hEj (σ p)]
    have hsσ : t.shape (σ p) = t.shape p := by
      rw [← hfσ p]
      exact hsh p
    have hsp : (npTranspose t f).shape (σ p) = t.shape p := by
      show t.shape (f (σ p)) = t.shape p
      rw [← hfσ p, hf p]
    by_cases h1 : (npTranspose t f).shape (σ p) = 1
    · rw [if_pos h1]
      have h2 := (jdx (σ p)).isLt
      omega
    · rw [if_neg h1]
  show (t.entry (fun k => ((jdx k : ℕ))) +
      t.entry (fun k => ((jdx (σ k) : ℕ)))) ^ 2 =
    (t.entry (broadcastIdx t.shape
        (fun k => (((Equiv.piCongrRight fun k => finCongr (hmax k)) jdx) k :
          ℕ))) +
      t.entry (fun p => broadcastIdx (npTranspose t f).shape
        (fun k => (((Equiv.piCongrRight fun k => finCongr (hmax k)) jdx) k :
          ℕ)) (finInvFun f p))) ^ 2
  rw [hA]
  exact congrArg (fun z : Fin t.m → ℕ =>
    ((t.entry fun k => ((jdx k : ℕ))) + t.entry z) ^ 2) hB.symm

/-- C5 amended: for `n ∈ {1,2,3}` particles, a tensor of rank `4n-1` and
non-negative indices `idx1, idx2 < 2n-1`, **provided the tensor's shape is
invariant under the permutation `σ` swapping k-point axes `idx1 ↔ idx2` and
orbital axes `(2n-1)+idx1 ↔ (2n-1)+idx2`**, `check_kpt_antiperm_symmetry`
returns the boolean that is true iff the norm of the tensor plus its
transpose under `σ` is below the tolerance.  Without the shape-invariance
proviso the claim is false: the broadcast sum raises a `ValueError` (see the
counterexample). -/
theorem check_kpt_antiperm_swap_norm (n : ℕ) (array : Tensor)
    (idx1 idx2 : ℕ) (tolerance : ℝ) (hn : 1 ≤ n) (hn3 : n ≤ 3)
    (hm : array.m = 4 * n - 1) (h1 : idx1 < 2 * n - 1) (h2 : idx2 < 2 * n - 1)
    (σ : Equiv.Perm (Fin array.m))
    (hσ : σ = (Equiv.swap ⟨2 * n - 1 + idx1, by omega⟩
        ⟨2 * n - 1 + idx2, by omega⟩).trans
      (Equiv.swap ⟨idx1, by omega⟩ ⟨idx2, by omega⟩))
    (hshape : ∀ k, array.shape (σ k) = array.shape k) :
    check_kpt_antiperm_symmetry array idx1 idx2 tolerance =
      Except.ok (Real.sqrt (antisymResidual array σ) < tolerance) := by
  have hc : idx1 < 2 * ((array.m + 1) / 4) - 1 ∧
      idx2 < 2 * ((array.m + 1) / 4) - 1 := by omega
  have h3 : ¬ 3 < (array.m + 1) / 4 := by omega
  have hk1 : idx1 < array.m := by omega
  have hk2 : idx2 < array.m := by omega
  have ho1 : 2 * n - 1 + idx1 < array.m := by omega
  have ho2 : 2 * n - 1 + idx2 < array.m := by omega
  have hσ2 : σ = (Equiv.swap ⟨2 * n - 1 + idx1, ho1⟩
      ⟨2 * n - 1 + idx2, ho2⟩).trans
      (Equiv.swap ⟨idx1, hk1⟩ ⟨idx2, hk2⟩) := hσ
  have hK1O1 : (⟨idx1, hk1⟩ : Fin array.m) ≠ ⟨2 * n - 1 + idx1, ho1⟩ :=
    Fin.ne_of_val_ne (show idx1 ≠ 2 * n - 1 + idx1 by omega)
  have hK1O2 : (⟨idx1, hk1⟩ : Fin array.m) ≠ ⟨2 * n - 1 + idx2, ho2⟩ :=
    Fin.ne_of_val_ne (show idx1 ≠ 2 * n - 1 + idx2 by omega)
  have hK2O1 : (⟨idx2, hk2⟩ : Fin array.m) ≠ ⟨2 * n - 1 + idx1, ho1⟩ :=
    Fin.ne_of_val_ne (show idx2 ≠ 2 * n - 1 + idx1 by omega)
  have hK2O2 : (⟨idx2, hk2⟩ : Fin array.m) ≠ ⟨2 * n - 1 + idx2, ho2⟩ :=
    Fin.ne_of_val_ne (show idx2 ≠ 2 * n - 1 + idx2 by omega)
  have houtdef : outAxes array.m idx1 idx2 hc =
      swapAt (swapAt (fun k => k) ⟨idx1, hk1⟩ ⟨idx2, hk2⟩)
        ⟨2 * n - 1 + idx1, ho1⟩ ⟨2 * n - 1 + idx2, ho2⟩ := by
    have hv1 : (⟨2 * ((array.m + 1) / 4) - 1 + idx1, by omega⟩ :
        Fin array.m) = ⟨2 * n - 1 + idx1, ho1⟩ :=
      Fin.ext (show 2 * ((array.m + 1) / 4) - 1 + idx1 = 2 * n - 1 + idx1
        by omega)
    have hv2 : (⟨2 * ((array.m + 1) / 4) - 1 + idx2, by omega⟩ :
        Fin array.m) = ⟨2 * n - 1 + idx2, ho2⟩ :=
      Fin.ext (show 2 * ((array.m + 1) / 4) - 1 + idx2 = 2 * n - 1 + idx2
        by omega)
    unfold outAxes
    rw [hv1, hv2]
  have hout : ∀ k, outAxes array.m idx1 idx2 hc k = σ k := by
    intro k
    rw [houtdef, hσ2, swapAt_eq, swapAt_eq]
    simp only [Equiv.trans_apply]
  have hcomm : ∀ x : Fin array.m,
      Equiv.swap ⟨2 * n - 1 + idx1, ho1⟩ ⟨2 * n - 1 + idx2, ho2⟩
          (Equiv.swap ⟨idx1, hk1⟩ ⟨idx2, hk2⟩ x) =
        Equiv.swap ⟨idx1, hk1⟩ ⟨idx2, hk2⟩
          (Equiv.swap ⟨2 * n - 1 + idx1, ho1⟩ ⟨2 * n - 1 + idx2, ho2⟩ x) := by
    intro x
    by_cases hx1 : x = ⟨idx1, hk1⟩
    · subst hx1
      rw [Equiv.swap_apply_left, Equiv.swap_apply_of_ne_of_ne hK2O1 hK2O2,
        Equiv.swap_apply_of_ne_of_ne hK1O1 hK1O2, Equiv.swap_apply_left]
    · by_cases hx2 : x = ⟨idx2, hk2⟩
      · subst hx2
        rw [Equiv.swap_apply_right, Equiv.swap_apply_of_ne_of_ne hK1O1 hK1O2,
          Equiv.swap_apply_of_ne_of_ne hK2O1 hK2O2, Equiv.swap_apply_right]
      · by_cases hx3 : x = ⟨2 * n - 1 + idx1, ho1⟩
        · subst hx3
          rw [Equiv.swap_apply_of_ne_of_ne (Ne.symm hK1O1) (Ne.symm hK2O1),
            Equiv.swap_apply_left,
            Equiv.swap_apply_of_ne_of_ne (Ne.symm hK1O2) (Ne.symm hK2O2)]
        · by_cases hx4 : x = ⟨2 * n - 1 + idx2, ho2⟩
          · subst hx4
            rw [Equiv.swap_apply_of_ne_of_ne (Ne.symm hK1O2) (Ne.symm hK2O2),
              Equiv.swap_apply_right,
              Equiv.swap_apply_of_ne_of_ne (Ne.symm hK1O1) (Ne.symm hK2O1)]
          · rw [Equiv.swap_apply_of_ne_of_ne hx1 hx2,
              Equiv.swap_apply_of_ne_of_ne hx3 hx4,
              Equiv.swap_apply_of_ne_of_ne hx1 hx2]
  have hinvσ : ∀ p, σ (σ p) = p := by
    intro p
    rw [hσ2]
    simp only [Equiv.trans_apply]
    rw [hcomm, Equiv.swap_apply_self, Equiv.swap_apply_self]
  have hout2 : ∀ p, outAxes array.m idx1 idx2 hc
      (outAxes array.m idx1 idx2 hc p) = p := by
    intro p
    rw [hout, hout, hinvσ]
  have hsh : ∀ k, array.shape (outAxes array.m idx1 idx2 hc k) =
      array.shape k := by
    intro k
    rw [hout k]
    exact hshape k
  have hcompat : npAddCompat array.shape
      (npTranspose array (outAxes array.m idx1 idx2 hc)).shape = true := by
    simp only [npAddCompat, decide_eq_true_eq]
    intro k
    exact Or.inl (hsh k).symm
  simp only [check_kpt_antiperm_symmetry, dif_pos hc, if_neg h3,
    if_pos hcompat]
  rw [normSq_broadcast_add_perm array (outAxes array.m idx1 idx2 hc) σ hout
    hout2 hsh]

theorem check_kpt_antiperm_swap_norm_witness :
    check_kpt_antiperm_symmetry w3 0 0 1 =
      Except.ok (Real.sqrt (antisymResidual w3 w3sigma) < 1) :=
  check_kpt_antiperm_swap_norm 1 w3 0 0 1 (by decide) (by decide) rfl
    (by decide) (by decide) w3sigma (Equiv.ext (by decide)) (by decide)

/-- C5 counterexample: for the rank-7 all-zero tensor `t7` (a well-formed
2-particle array) and the valid non-negative pair `idx1 = 0`, `idx2 = 2`,
`check_kpt_antiperm_symmetry` does not return a boolean at all: the
transposed operand has shape (1,1,1,3,1,2,1) against (1,1,1,2,1,3,1), the
broadcast of axes of extents 2 and 3 fails, and the numpy sum raises a
`ValueError`. -/
theorem check_kpt_antiperm_counterexample :
    t7.m = 4 * 2 - 1 ∧ (0 : ℕ) < 2 * 2 - 1 ∧ (2 : ℕ) < 2 * 2 - 1 ∧
      check_kpt_antiperm_symmetry t7 0 2 (1 / 100000000) =
        Except.error PyError.broadcastError :=
  ⟨rfl, by decide, by decide, rfl⟩
